import Mathlib

/-!
Verification of the tonal-pitch-arithmetic core of the `mutheors` music
theory library (Rust).  The definitions below are a shallow embedding of
`src/core/tuning.rs`, `src/core/interval.rs`, `src/core/scale.rs` and
`src/core/chord/{mod,quality,parser}.rs`.  Rust `i8`/`u8` arithmetic is
modelled over `Int`, with explicit two's-complement wrapping
(`i8Wrap`/`u8Wrap`) where the source casts between `u8` and `i8`, and
explicit saturation (`i8Sat`) where the source uses `saturating_mul` /
`saturating_add`.  Rust's truncating `/` and `%` on signed integers are
`Int.tdiv` / `Int.tmod`; `rem_euclid` is `Int.emod`.  Fallible Rust
functions returning `Result` become `Except MusicError`; functions that
`unwrap` internally become `Option`-valued.
-/

namespace Mutheors

/-- Interpret an integer as a Rust `i8` two's-complement wrap (used for `as i8` casts). -/
def i8Wrap (n : Int) : Int := (n + 128).emod 256 - 128

/-- Interpret an integer as a Rust `u8` wrap (used for `as u8` casts). -/
def u8Wrap (n : Int) : Int := n.emod 256

/-- Saturation to the `i8` range, modelling `saturating_add` / `saturating_mul` results. -/
def i8Sat (n : Int) : Int := max (-128) (min 127 n)

/-- Error type from `src/core/errors.rs` (the tonal-core variants; the
composition/MIDI-layer variants carrying `f32`/string payloads are outside the
claims' scope and elided). The doc string of `InvalidOctave` in the source reads
"Invalid Octave {octave}, IT MUST BE IN [0, 10]". -/
inductive MusicError where
  | InvalidPitch : MusicError
  | UnsupportedChord : MusicError
  | InvalidIntervalDegree : Int → MusicError
  | IntervalParseError : String → MusicError
  | InvalidIntervalQuality : MusicError
  | InvalidScaleDegree : Int → MusicError
  | InvalidOctave : Int → MusicError
  | InvalidChordQuality : MusicError
deriving DecidableEq, Repr

deriving instance DecidableEq for Except

/-- The `PitchClass` enum of `tuning.rs` (17 spelled classes plus the `None` sentinel). -/
inductive PitchClass where
  | None | C | Cs | Db | D | Ds | Eb | E | F | Fs | Gb | G | Gs | Ab | A | As | Bb | B
deriving DecidableEq, Repr

namespace PitchClass

/-- `PitchClass::sharp` from `tuning.rs`. -/
def sharp : PitchClass → PitchClass
  | .None => .None
  | .C => .Cs
  | .Cs => .D
  | .Db => .D
  | .D => .Ds
  | .Ds => .E
  | .Eb => .E
  | .E => .F
  | .F => .Fs
  | .Fs => .G
  | .Gb => .G
  | .G => .Gs
  | .Gs => .A
  | .Ab => .A
  | .A => .As
  | .As => .B
  | .Bb => .B
  | .B => .C

/-- `PitchClass::flat` from `tuning.rs`. -/
def flat : PitchClass → PitchClass
  | .None => .None
  | .C => .B
  | .Cs => .C
  | .Db => .C
  | .D => .Db
  | .Ds => .D
  | .Eb => .D
  | .E => .Eb
  | .F => .E
  | .Fs => .F
  | .Gb => .F
  | .G => .Gb
  | .Gs => .G
  | .Ab => .G
  | .A => .Ab
  | .As => .A
  | .Bb => .A
  | .B => .Bb

/-- `PitchClass::semitones` from `tuning.rs` (1-based; `None` is 0). -/
def semitones : PitchClass → Int
  | .C => 1
  | .Cs => 2
  | .Db => 2
  | .D => 3
  | .Ds => 4
  | .Eb => 4
  | .E => 5
  | .F => 6
  | .Fs => 7
  | .Gb => 7
  | .G => 8
  | .Gs => 9
  | .Ab => 9
  | .A => 10
  | .As => 11
  | .Bb => 11
  | .B => 12
  | .None => 0

/-- `PitchClass::degree` from `tuning.rs` (diatonic degree; `None` is 0). -/
def degree : PitchClass → Int
  | .C => 1
  | .Cs => 1
  | .Db => 2
  | .D => 2
  | .Ds => 2
  | .Eb => 3
  | .E => 3
  | .F => 4
  | .Fs => 4
  | .Gb => 5
  | .G => 5
  | .Gs => 5
  | .Ab => 6
  | .A => 6
  | .As => 6
  | .Bb => 7
  | .B => 7
  | .None => 0

/-- `PitchClass::from_degree` from `tuning.rs`: reduce with `rem_euclid(7)` and
map 1..7 to the natural letters. -/
def fromDegree (d : Int) : PitchClass :=
  let dd := (d - 1).emod 7 + 1
  if dd = 1 then .C
  else if dd = 2 then .D
  else if dd = 3 then .E
  else if dd = 4 then .F
  else if dd = 5 then .G
  else if dd = 6 then .A
  else if dd = 7 then .B
  else .None

/-- Loop body of `PitchClass::add_accidentals`: the source folds over
`0..accidentals.abs()`, sharpening (resp. flattening) while the diatonic degree
is unchanged and breaking otherwise.  The fold length `accidentals.abs()` is the
`fuel` argument. -/
def addAccGo (pc : PitchClass) (acc : Int) : Nat → PitchClass × Int
  | 0 => (pc, acc)
  | n + 1 =>
    let newPc := if 0 < acc then pc.sharp else pc.flat
    if newPc.degree = pc.degree then addAccGo newPc (acc - acc.sign) n
    else (pc, acc)

/-- `PitchClass::add_accidentals` from `tuning.rs`. -/
def addAccidentals (pc : PitchClass) (acc : Int) : PitchClass × Int :=
  addAccGo pc acc acc.natAbs

end PitchClass

/-- `IntervalQuality` from `interval.rs`. -/
inductive IntervalQuality where
  | Perfect | Major | Minor | Augmented | Diminished
deriving DecidableEq, Repr

/-- `Consonance` from `interval.rs`. -/
inductive Consonance where
  | Consonant | Imperfect | Dissonant
deriving DecidableEq, Repr

/-- The `Interval` struct of `interval.rs`.  `degree` holds the `IntervalDegree`
payload (a `u8` in the source, validated to 1..=127 on construction). -/
structure Interval where
  quality : IntervalQuality
  degree : Int
  semitones : Int
  isDescending : Bool
deriving DecidableEq, Repr

namespace Interval

/-- `calculate_semitones` from `interval.rs`.  The source computes in `u8`/`i8`:
`((12 * octaves + base_semitones) as i8 + adjustment) as u8`, so the wraps are
modelled explicitly. -/
def calculateSemitones (quality : IntervalQuality) (degree : Int) :
    Except MusicError Int :=
  let degreeNum := (degree - 1).emod 7 + 1
  let octaves := (degree - 1).ediv 7
  let baseSemitones :=
    if degreeNum = 1 then 0
    else if degreeNum = 2 then 2
    else if degreeNum = 3 then 4
    else if degreeNum = 4 then 5
    else if degreeNum = 5 then 7
    else if degreeNum = 6 then 9
    else (11 : Int)
  let isPerfectDegree := degreeNum = 1 ∨ degreeNum = 4 ∨ degreeNum = 5 ∨ degreeNum = 8
  let adj : Except MusicError Int :=
    match quality with
    | .Perfect => if isPerfectDegree then .ok 0 else .error .InvalidIntervalQuality
    | .Major => if isPerfectDegree then .error .InvalidIntervalQuality else .ok 0
    | .Minor => if isPerfectDegree then .error .InvalidIntervalQuality else .ok (-1)
    | .Augmented => .ok 1
    | .Diminished => if isPerfectDegree then .ok (-1) else .ok (-2)
  match adj with
  | .error e => .error e
  | .ok adjustment => .ok (u8Wrap (i8Wrap (12 * octaves + baseSemitones) + adjustment))

/-- `Interval::from_quality_degree` from `interval.rs`: validate the degree
(`IntervalDegree::new`, 1..=127), compute the semitones, and store them `as i8`. -/
def fromQualityDegree (quality : IntervalQuality) (degree : Int) :
    Except MusicError Interval :=
  if degree < 1 ∨ 127 < degree then .error (.InvalidIntervalDegree degree)
  else
    match calculateSemitones quality degree with
    | .error e => .error e
    | .ok s => .ok ⟨quality, degree, i8Wrap s, false⟩

/-- Canonical (quality, degree) decomposition table of
`Interval::from_semitones`, indexed by the octave-reduced absolute semitone
count; the tritone (6) is disambiguated by direction. -/
def fromSemitonesQD (absSemi : Int) (isDescending : Bool) : IntervalQuality × Int :=
  if absSemi = 0 then (.Perfect, 1)
  else if absSemi = 1 then (.Minor, 2)
  else if absSemi = 2 then (.Major, 2)
  else if absSemi = 3 then (.Minor, 3)
  else if absSemi = 4 then (.Major, 3)
  else if absSemi = 5 then (.Perfect, 4)
  else if absSemi = 6 then
    (if isDescending then (.Diminished, 5) else (.Augmented, 4))
  else if absSemi = 7 then (.Perfect, 5)
  else if absSemi = 8 then (.Minor, 6)
  else if absSemi = 9 then (.Major, 6)
  else if absSemi = 10 then (.Minor, 7)
  else (.Major, 7)

/-- The degree produced by `Interval::from_semitones`: the table degree offset
by 7 per whole octave (`degree + octaves as u8 * 7`). -/
def fromSemitonesDegree (semitones : Int) : Int :=
  (fromSemitonesQD (|semitones|.tmod 12) (semitones < 0)).2 + |semitones|.tdiv 12 * 7

/-- `Interval::from_semitones` from `interval.rs`. -/
def fromSemitones (semitones : Int) : Except MusicError Interval :=
  if fromSemitonesDegree semitones < 1 ∨ 127 < fromSemitonesDegree semitones then
    .error (.InvalidIntervalDegree (fromSemitonesDegree semitones))
  else
    .ok ⟨(fromSemitonesQD (|semitones|.tmod 12) (semitones < 0)).1,
      fromSemitonesDegree semitones, semitones, semitones < 0⟩

/-- Helper mirroring the `.unwrap()` on the never-failing factory constructors. -/
def unwrapI (e : Except MusicError Interval) : Interval :=
  match e with
  | .ok i => i
  | .error _ => ⟨.Perfect, 1, 0, false⟩

/-- `Interval::unison`. -/
def unison : Interval := unwrapI (fromQualityDegree .Perfect 1)

/-- `Interval::minor_second`. -/
def minorSecond : Interval := unwrapI (fromQualityDegree .Minor 2)

/-- `Interval::major_second`. -/
def majorSecond : Interval := unwrapI (fromQualityDegree .Major 2)

/-- `Interval::minor_third`. -/
def minorThird : Interval := unwrapI (fromQualityDegree .Minor 3)

/-- `Interval::major_third`. -/
def majorThird : Interval := unwrapI (fromQualityDegree .Major 3)

/-- `Interval::perfect_fourth`. -/
def perfectFourth : Interval := unwrapI (fromQualityDegree .Perfect 4)

/-- `Interval::perfect_fifth`. -/
def perfectFifth : Interval := unwrapI (fromQualityDegree .Perfect 5)

/-- `Interval::minor_sixth`. -/
def minorSixth : Interval := unwrapI (fromQualityDegree .Minor 6)

/-- `Interval::major_sixth`. -/
def majorSixth : Interval := unwrapI (fromQualityDegree .Major 6)

/-- `Interval::minor_seventh`. -/
def minorSeventh : Interval := unwrapI (fromQualityDegree .Minor 7)

/-- `Interval::major_seventh`. -/
def majorSeventh : Interval := unwrapI (fromQualityDegree .Major 7)

/-- `Interval::octave`. -/
def octaveInterval : Interval := unwrapI (fromQualityDegree .Perfect 8)

/-- `Interval::negate` from `interval.rs`. -/
def negate (i : Interval) : Interval :=
  { i with semitones := -i.semitones, isDescending := !i.isDescending }

/-- `Interval::semitones_mod` from `interval.rs` (`rem_euclid(12)`). -/
def semitonesMod (i : Interval) : Int := i.semitones.emod 12

/-- `Interval::consonance` from `interval.rs`: a match on
`(self.degree.0 % 7, self.quality)`, arms in source order. -/
def consonance (i : Interval) : Consonance :=
  let d7 := i.degree.emod 7
  if d7 = 0 then .Consonant
  else if d7 = 3 ∧ i.quality = .Perfect then .Consonant
  else if d7 = 4 ∧ i.quality = .Perfect then .Consonant
  else if i.quality = .Perfect then .Consonant
  else if (d7 = 1 ∨ d7 = 2 ∨ d7 = 5) ∧ (i.quality = .Major ∨ i.quality = .Minor) then
    .Imperfect
  else .Dissonant

end Interval

/-- The `Tuning` struct of `tuning.rs`: a spelled pitch.  The optional
`freq: Option<f32>` override field is not modelled (floating point; it is unread
by every operation the claims cover except `frequency()`). -/
structure Tuning where
  cls : PitchClass
  accidentals : Int
  octave : Int
deriving DecidableEq, Repr

namespace Tuning

/-- `Tuning::new` from `tuning.rs`. -/
def new (c : PitchClass) (o : Int) : Tuning := ⟨c, 0, o⟩

/-- `Tuning::with_octave`. -/
def withOctave (t : Tuning) (o : Int) : Tuning := { t with octave := o }

/-- `Tuning::class_semitones` (`(sem + accidentals + 11) % 12` with Rust's
truncating `%`). -/
def classSemitones (t : Tuning) : Int :=
  (t.cls.semitones + t.accidentals + 11).tmod 12

/-- `Tuning::number` from `tuning.rs`: 0 for the `None` class, otherwise
`(octave+1).saturating_mul(12).saturating_add(base-1).saturating_add(accidentals)`. -/
def number (t : Tuning) : Int :=
  let base := t.cls.semitones
  if base = 0 then 0
  else i8Sat (i8Sat (i8Sat ((t.octave + 1) * 12) + (base - 1)) + t.accidentals)

/-- The exact (unclamped) value of `number`: the absolute semitone index
`(octave+1)*12 + classSemitone - 1 + accidentals`.  `number t = numberExact t`
exactly when no saturating step of `number` clamps and the class is not `None`. -/
def numberExact (t : Tuning) : Int :=
  (t.octave + 1) * 12 + t.cls.semitones - 1 + t.accidentals

/-- Loop body of the octave-correction loop in `Tuning::add_interval`
(`while pc_semi_diff.abs() > 10`), with the fuel argument bounding the
iteration count; `normLoop` below supplies a provably sufficient fuel. -/
def normGo (est diff : Int) : Nat → Int × Int
  | 0 => (est, diff)
  | n + 1 =>
    if 10 < |diff| then normGo (est + diff.sign) (diff - diff.sign * 12) n
    else (est, diff)

/-- The octave-correction loop of `Tuning::add_interval`: repeatedly move one
octave toward the pitch-class difference and reduce the difference by 12 while
its absolute value exceeds a minor seventh (10 semitones). -/
def normLoop (est diff : Int) : Int × Int :=
  normGo est diff diff.natAbs

/-- Estimated octave computed (and bounds-checked) by `Tuning::add_interval`:
`self.octave + (new_semitones + 11) / 12 - 1` with Rust's truncating division. -/
def estimatedOctave (t : Tuning) (i : Interval) : Int :=
  t.octave + (i.semitones + t.cls.semitones + t.accidentals + 11).tdiv 12 - 1

/-- Successful branch of `Tuning::add_interval`: pick the target letter from
the diatonic-degree arithmetic, correct the octave estimate while the
pitch-class difference exceeds a minor seventh, and spend the remaining
difference as accidentals on the letter. -/
def addIntervalCore (t : Tuning) (i : Interval) (estimatedOct : Int) : Tuning :=
  let newSemitones := i.semitones + t.cls.semitones + t.accidentals
  let oriDegree := t.cls.degree
  let newDegree := oriDegree + i.degree * i.semitones.sign - i.semitones.sign
  let pitchClass := PitchClass.fromDegree newDegree
  let pcSemiDiff := newSemitones - (pitchClass.semitones + (estimatedOct - t.octave) * 12)
  let ed := normLoop estimatedOct pcSemiDiff
  let pa := pitchClass.addAccidentals ed.2
  ⟨pa.1, pa.2, ed.1⟩

/-- `Tuning::add_interval` from `tuning.rs`: fail with `InvalidOctave` when the
estimated octave falls outside `0..=11`, otherwise build the transposed tuning. -/
def addInterval (t : Tuning) (i : Interval) : Except MusicError Tuning :=
  if t.estimatedOctave i < 0 ∨ 11 < t.estimatedOctave i then
    .error (.InvalidOctave (t.estimatedOctave i))
  else .ok (addIntervalCore t i (t.estimatedOctave i))

/-- `Tuning::sharp`. -/
def sharpT (t : Tuning) : Tuning := { t with accidentals := t.accidentals + 1 }

/-- `Tuning::flat`. -/
def flatT (t : Tuning) : Tuning := { t with accidentals := t.accidentals - 1 }

/-- `Tuning::simple` from `tuning.rs`: re-derive the spelling by transposing the
accidental-free tuning by an interval of `accidentals` semitones.  The source
unwraps both steps; failure of either is modelled as `Option.none`. -/
def simple (t : Tuning) : Option Tuning :=
  match Interval.fromSemitones t.accidentals with
  | .error _ => Option.none
  | .ok i =>
    match addInterval (Tuning.new t.cls t.octave) i with
    | .error _ => Option.none
    | .ok t' => Option.some t'

end Tuning

/-- `ScaleType` from `scale.rs` (closed set of named patterns plus `Custom`). -/
inductive ScaleType where
  | Major | NaturalMinor | HarmonicMinor | MelodicMinor
  | Ionian | Dorian | Phrygian | Lydian | Mixolydian | Aeolian | Locrian
  | PentatonicMajor | PentatonicMinor | Blues
  | WholeTone | Octatonic | Chromatic | BebopDominant
  | Hijaz | Hirajoshi | InSen
  | Custom : List Int → ScaleType
deriving DecidableEq, Repr

/-- Left rotation of a list by `n` places (Rust `rotate_left`; in the source
`n` never exceeds the length). -/
def rotL (n : Nat) (l : List α) : List α := l.drop n ++ l.take n

/-- The major step pattern `[2,2,1,2,2,2,1]` from `scale.rs`. -/
def natureMajorSteps : List Int := [2, 2, 1, 2, 2, 2, 1]

/-- `parse_intervals` from `scale.rs`: convert a step list with
`Interval::from_semitones`, propagating the first error. -/
def parseIntervals : List Int → Except MusicError (List Interval)
  | [] => .ok []
  | s :: rest =>
    match Interval.fromSemitones s with
    | .error e => .error e
    | .ok i =>
      match parseIntervals rest with
      | .error e => .error e
      | .ok l => .ok (i :: l)

/-- `Scale::get_intervals` from `scale.rs`: the per-type step tables. -/
def getIntervals : ScaleType → Except MusicError (List Interval)
  | .Major => parseIntervals (rotL 0 natureMajorSteps)
  | .NaturalMinor => parseIntervals (rotL 5 natureMajorSteps)
  | .HarmonicMinor => parseIntervals [2, 1, 2, 2, 1, 3, 1]
  | .MelodicMinor => parseIntervals [2, 1, 2, 2, 2, 2, 1]
  | .Ionian => parseIntervals (rotL 0 natureMajorSteps)
  | .Dorian => parseIntervals (rotL 1 natureMajorSteps)
  | .Phrygian => parseIntervals (rotL 2 natureMajorSteps)
  | .Lydian => parseIntervals (rotL 3 natureMajorSteps)
  | .Mixolydian => parseIntervals (rotL 4 natureMajorSteps)
  | .Aeolian => parseIntervals (rotL 5 natureMajorSteps)
  | .Locrian => parseIntervals (rotL 6 natureMajorSteps)
  | .PentatonicMajor => parseIntervals [2, 2, 3, 2, 3]
  | .PentatonicMinor => parseIntervals [3, 2, 2, 3, 2]
  | .Blues => parseIntervals [3, 2, 1, 1, 3, 2]
  | .WholeTone => parseIntervals [2, 2, 2, 2, 2, 2]
  | .Octatonic => parseIntervals [2, 1, 2, 1, 2, 1, 2, 1]
  | .Chromatic => parseIntervals [1, 1, 1, 1, 1, 1, 1, 1, 1, 1, 1, 1]
  | .BebopDominant => parseIntervals [2, 2, 1, 2, 2, 1, 1, 2]
  | .Hijaz => parseIntervals [1, 3, 1, 2, 1, 3, 1]
  | .Hirajoshi => parseIntervals [2, 1, 4, 1, 4]
  | .InSen => parseIntervals [1, 4, 2, 3, 2]
  | .Custom pattern => parseIntervals pattern

/-- The `Scale` struct of `scale.rs`. -/
structure Scale where
  root : Tuning
  scaleType : ScaleType
deriving DecidableEq, Repr

namespace Scale

/-- Inner walk of `Scale::generate_tunings`: transpose the running tuning by
each step in turn, collecting every intermediate result. -/
def walkSteps (current : Tuning) : List Interval → Except MusicError (List Tuning)
  | [] => .ok []
  | i :: rest =>
    match current.addInterval i with
    | .error e => .error e
    | .ok t =>
      match walkSteps t rest with
      | .error e => .error e
      | .ok l => .ok (t :: l)

/-- The step pattern repeated `m` times in sequence (the outer
`for _ in 0..=octaves` loop of `generate_tunings` traverses the pattern
`octaves+1` times). -/
def repSteps (ivs : List Interval) : Nat → List Interval
  | 0 => []
  | m + 1 => ivs ++ repSteps ivs m

/-- `Scale::generate_tunings` from `scale.rs`: start from the root, walk the
pattern cumulatively for `octaves+1` repetitions, and return the note list
headed by the root. -/
def generateTunings (s : Scale) (octaves : Nat) : Except MusicError (List Tuning) :=
  match getIntervals s.scaleType with
  | .error e => .error e
  | .ok intervals =>
    match walkSteps s.root (repSteps intervals (octaves + 1)) with
    | .error e => .error e
    | .ok l => .ok (s.root :: l)

end Scale

/-- `ChordQuality` from `chord/quality.rs` (the closed 23-entry catalog). -/
inductive ChordQuality where
  | Major | Minor | Diminished | Augmented
  | Major7 | Dominant7 | Minor7 | MinorMajor7
  | HalfDiminished7 | Diminished7 | Augmented7 | AugmentedMajor7
  | Major6 | Minor6
  | Major9 | Dominant9 | Minor9 | Add9 | MinorAdd9
  | Suspended2 | Suspended4 | Suspended7 | Suspended9
deriving DecidableEq, Repr

namespace ChordQuality

/-- `ChordQuality::iter` from `chord/quality.rs` (the catalog in its fixed order). -/
def qualityList : List ChordQuality :=
  [.Major, .Minor, .Diminished, .Augmented,
   .Major7, .Dominant7, .Minor7, .MinorMajor7,
   .HalfDiminished7, .Diminished7, .Augmented7, .AugmentedMajor7,
   .Major6, .Minor6,
   .Major9, .Dominant9, .Minor9, .Add9, .MinorAdd9,
   .Suspended2, .Suspended4, .Suspended7, .Suspended9]

open Interval in
/-- `ChordQuality::intervals` from `chord/quality.rs`: the canonical interval
template of each catalog entry. -/
def intervalsOf : ChordQuality → List Interval
  | .Major => [unwrapI (fromQualityDegree .Major 3), unwrapI (fromQualityDegree .Perfect 5)]
  | .Minor => [unwrapI (fromQualityDegree .Minor 3), unwrapI (fromQualityDegree .Perfect 5)]
  | .Diminished =>
    [unwrapI (fromQualityDegree .Minor 3), unwrapI (fromQualityDegree .Diminished 5)]
  | .Augmented =>
    [unwrapI (fromQualityDegree .Major 3), unwrapI (fromQualityDegree .Augmented 5)]
  | .Major7 =>
    [unwrapI (fromQualityDegree .Major 3), unwrapI (fromQualityDegree .Perfect 5),
     unwrapI (fromQualityDegree .Major 7)]
  | .Dominant7 =>
    [unwrapI (fromQualityDegree .Major 3), unwrapI (fromQualityDegree .Perfect 5),
     unwrapI (fromQualityDegree .Minor 7)]
  | .Minor7 =>
    [unwrapI (fromQualityDegree .Minor 3), unwrapI (fromQualityDegree .Perfect 5),
     unwrapI (fromQualityDegree .Minor 7)]
  | .MinorMajor7 =>
    [unwrapI (fromQualityDegree .Minor 3), unwrapI (fromQualityDegree .Perfect 5),
     unwrapI (fromQualityDegree .Major 7)]
  | .HalfDiminished7 =>
    [unwrapI (fromQualityDegree .Minor 3), unwrapI (fromQualityDegree .Diminished 5),
     unwrapI (fromQualityDegree .Minor 7)]
  | .Diminished7 =>
    [unwrapI (fromQualityDegree .Diminished 3), unwrapI (fromQualityDegree .Diminished 5),
     unwrapI (fromQualityDegree .Diminished 7)]
  | .Augmented7 =>
    [unwrapI (fromQualityDegree .Augmented 3), unwrapI (fromQualityDegree .Augmented 5),
     unwrapI (fromQualityDegree .Minor 7)]
  | .AugmentedMajor7 =>
    [unwrapI (fromQualityDegree .Augmented 3), unwrapI (fromQualityDegree .Augmented 5),
     unwrapI (fromQualityDegree .Major 7)]
  | .Major6 =>
    [unwrapI (fromQualityDegree .Major 3), unwrapI (fromQualityDegree .Perfect 5),
     unwrapI (fromQualityDegree .Major 6)]
  | .Minor6 =>
    [unwrapI (fromQualityDegree .Minor 3), unwrapI (fromQualityDegree .Perfect 5),
     unwrapI (fromQualityDegree .Major 6)]
  | .Major9 =>
    [unwrapI (fromQualityDegree .Major 3), unwrapI (fromQualityDegree .Perfect 5),
     unwrapI (fromQualityDegree .Major 7), unwrapI (fromQualityDegree .Major 9)]
  | .Dominant9 =>
    [unwrapI (fromQualityDegree .Major 3), unwrapI (fromQualityDegree .Perfect 5),
     unwrapI (fromQualityDegree .Minor 7), unwrapI (fromQualityDegree .Major 9)]
  | .Minor9 =>
    [unwrapI (fromQualityDegree .Minor 3), unwrapI (fromQualityDegree .Perfect 5),
     unwrapI (fromQualityDegree .Minor 7), unwrapI (fromQualityDegree .Major 9)]
  | .Add9 =>
    [unwrapI (fromQualityDegree .Major 3), unwrapI (fromQualityDegree .Perfect 5),
     unwrapI (fromQualityDegree .Major 9)]
  | .MinorAdd9 =>
    [unwrapI (fromQualityDegree .Minor 3), unwrapI (fromQualityDegree .Perfect 5),
     unwrapI (fromQualityDegree .Major 9)]
  | .Suspended2 =>
    [unwrapI (fromQualityDegree .Major 2), unwrapI (fromQualityDegree .Perfect 5)]
  | .Suspended4 =>
    [unwrapI (fromQualityDegree .Perfect 4), unwrapI (fromQualityDegree .Perfect 5)]
  | .Suspended7 =>
    [unwrapI (fromQualityDegree .Perfect 4), unwrapI (fromQualityDegree .Perfect 5),
     unwrapI (fromQualityDegree .Minor 7)]
  | .Suspended9 =>
    [unwrapI (fromQualityDegree .Perfect 4), unwrapI (fromQualityDegree .Perfect 5),
     unwrapI (fromQualityDegree .Minor 7), unwrapI (fromQualityDegree .Major 9)]

end ChordQuality

/-- Ordered insertion without duplicates (canonical form of a `BTreeSet<i8>`). -/
def insertSD (x : Int) : List Int → List Int
  | [] => [x]
  | y :: rest =>
    if x < y then x :: y :: rest
    else if x = y then y :: rest
    else y :: insertSD x rest

/-- A list of semitone classes as a canonical sorted duplicate-free list,
modelling the `BTreeSet` comparisons in `analyze_from`. -/
def sortedDedup (l : List Int) : List Int := l.foldr insertSD []

/-- Octave-reduced semitone-class set of an interval list (`semitones_mod`
collected into a `BTreeSet`). -/
def classSetOf (l : List Interval) : List Int :=
  sortedDedup (l.map Interval.semitonesMod)

namespace ChordQuality

/-- Catalog scan of `ChordQuality::analyze_from` in `chord/quality.rs`:
return the first template whose reduced class set equals the input's. -/
def findQ (s : List Int) : List ChordQuality → Except MusicError ChordQuality
  | [] => .error .InvalidChordQuality
  | q :: rest => if classSetOf (intervalsOf q) = s then .ok q else findQ s rest

/-- `ChordQuality::analyze_from` from `chord/quality.rs`: exact set match
against each catalog template, else `InvalidChordQuality` (the scoring
fallback is only a TODO comment in that file). -/
def analyzeFromQ (intervals : List Interval) : Except MusicError ChordQuality :=
  findQ (classSetOf intervals) qualityList

/-- Number of input classes absent from a template's class set. -/
def absentCount (s : List Int) (q : ChordQuality) : Nat :=
  (s.filter (fun c => ¬ (classSetOf (intervalsOf q)).contains c)).length

/-- Number of input classes present in a template's class set. -/
def presentCount (s : List Int) (q : ChordQuality) : Nat :=
  (s.filter (fun c => (classSetOf (intervalsOf q)).contains c)).length

/-- Strictly-better test for the spec's tie-break scoring: fewer unexplained
tones wins; among ties, more shared tones wins. -/
def betterScore (s : List Int) (cand best : ChordQuality) : Bool :=
  absentCount s cand < absentCount s best ∨
    (absentCount s cand = absentCount s best ∧ presentCount s best < presentCount s cand)

/-- The best-scoring catalog template for an input class set under the spec's
tie-break rule, scanning the catalog in order starting from its head. -/
def bestTemplate (s : List Int) : ChordQuality :=
  qualityList.foldl (fun b c => if betterScore s c b then c else b) .Major

/-- Modelled from the spec: the tuple-returning `ChordQuality::analyze_from`
that `Chord::analyze_from` in `chord/parser.rs` calls (`chord_quality.0` /
`chord_quality.1`) is not present under `src/` (the `quality.rs` snapshot there
still has the exact-match-only version).  Following spec section 4.4: an exact
reduced-set match returns immediately with no residual; otherwise every
template is scored by (input classes absent from template, input classes
present in template), fewer unexplained tones first and more shared tones on
ties, and the best template is returned together with the leftover unexplained
intervals as residual extensions; when no template shares any tone, it fails
with `InvalidChordQuality`. -/
def analyzeScored (intervals : List Interval) :
    Except MusicError (ChordQuality × List Interval) :=
  match findQ (classSetOf intervals) qualityList with
  | .ok q => .ok (q, [])
  | .error _ =>
    if presentCount (classSetOf intervals) (bestTemplate (classSetOf intervals)) = 0 then
      .error .InvalidChordQuality
    else
      .ok (bestTemplate (classSetOf intervals),
        intervals.filter
          (fun i =>
            ¬ (classSetOf (intervalsOf (bestTemplate (classSetOf intervals)))).contains
              i.semitonesMod))

end ChordQuality

/-- `ChordType` from `chord/mod.rs`. -/
inductive ChordType where
  | Triad | Seventh
  | Extended : Int → ChordType
  | Suspended : Int → ChordType
  | Power | Altered | Custom
deriving DecidableEq, Repr

/-- `Voicing` from `chord/mod.rs`. -/
inductive Voicing where
  | ClosePosition | OpenPosition | Drop2 | Drop3 | Cluster
deriving DecidableEq, Repr

/-- `Inversion` from `chord/mod.rs`. -/
inductive Inversion where
  | RootPosition | First | Second | Third
deriving DecidableEq, Repr

/-- `ExtensionAlter` from `chord/mod.rs`. -/
inductive ExtensionAlter where
  | Add : Tuning → ExtensionAlter
  | No : Tuning → ExtensionAlter
deriving DecidableEq, Repr

namespace ExtensionAlter

/-- The `Deref` impl of `ExtensionAlter`: the wrapped tuning. -/
def tuning : ExtensionAlter → Tuning
  | .Add t => t
  | .No t => t

/-- `ExtensionAlter::is_add`. -/
def isAdd : ExtensionAlter → Bool
  | .Add _ => true
  | .No _ => false

/-- `ExtensionAlter::is_no`. -/
def isNo : ExtensionAlter → Bool
  | .Add _ => false
  | .No _ => true

end ExtensionAlter

/-- The `Chord` struct of `chord/mod.rs`. -/
structure Chord where
  root : Tuning
  quality : ChordQuality
  chordType : ChordType
  inversion : Inversion
  voicing : Voicing
  extensions : List ExtensionAlter
deriving DecidableEq, Repr

namespace Chord

/-- `Chord::construct` from `chord/mod.rs`. -/
def construct (tuning : Tuning) (chordType : ChordType) (chordQuality : ChordQuality) :
    Chord :=
  ⟨tuning, chordQuality, chordType, .RootPosition, .ClosePosition, []⟩

/-- `Chord::new` from `chord/mod.rs` (always `Ok`). -/
def newChord (root : Tuning) (quality : ChordQuality) : Except MusicError Chord :=
  .ok (construct root .Triad quality)

/-- `Chord::invert` from `chord/mod.rs` (sets the inversion state). -/
def invert (c : Chord) (inversion : Inversion) : Chord := { c with inversion }

/-- `Chord::with_extension` from `chord/mod.rs`. -/
def withExtension (c : Chord) (ts : List ExtensionAlter) : Chord :=
  { c with extensions := c.extensions ++ ts }

/-- `Interval::from_semitones_unchecked`: fall back to a unison on error. -/
def fromSemitonesUnchecked (s : Int) : Interval :=
  match Interval.fromSemitones s with
  | .ok i => i
  | .error _ => Interval.unison

/-- Extension scan of `Chord::intervals`: partition the extensions into new
`Add` intervals (skipping duplicates) and `No` intervals to remove, in order. -/
def extScan (base : List Interval) (root : Tuning) :
    List ExtensionAlter → List Interval → List Interval → List Interval × List Interval
  | [], conv, pop => (conv, pop)
  | e :: rest, conv, pop =>
    let i := fromSemitonesUnchecked (e.tuning.number - root.number)
    if ¬ (base.contains i ∨ conv.contains i) ∧ e.isAdd then
      extScan base root rest (conv ++ [i]) pop
    else if e.isNo then extScan base root rest conv (pop ++ [i])
    else extScan base root rest conv pop

/-- Remove the first interval with the given degree, if any (`position` +
`remove` in `Chord::intervals`). -/
def removeFirstDeg (d : Int) : List Interval → List Interval
  | [] => []
  | x :: rest => if x.degree = d then rest else x :: removeFirstDeg d rest

/-- `Chord::intervals` from `chord/mod.rs`: the quality's template plus the
resolved `Add` extensions, minus the degrees named by `No` extensions. -/
def chordIntervals (c : Chord) : List Interval :=
  let base := c.quality.intervalsOf
  let cp := extScan base c.root c.extensions [] []
  cp.2.foldl (fun acc i => removeFirstDeg i.degree acc) (base ++ cp.1)

/-- Transpose the root by each interval, failing if any transposition fails
(the source unwraps). -/
def addAll (root : Tuning) : List Interval → Option (List Tuning)
  | [] => Option.some []
  | i :: rest =>
    match root.addInterval i with
    | .error _ => Option.none
    | .ok t => (addAll root rest).map (t :: ·)

/-- Raise the octave of the last note by one (`last_mut` in `apply_inversion`). -/
def bumpLast (l : List Tuning) : List Tuning :=
  match l.getLast? with
  | Option.none => l
  | Option.some t => l.dropLast ++ [t.withOctave (t.octave + 1)]

/-- `Chord::apply_inversion` from `chord/mod.rs`: `RootPosition` returns the
notes unchanged; the other inversions rotate left by 1/2/3 and raise the
now-last note's octave by one.  `None` models the `rotate_left` panic on lists
shorter than the rotation amount. -/
def applyInversion (inversion : Inversion) (notes : List Tuning) :
    Option (List Tuning) :=
  match inversion with
  | .RootPosition => Option.some notes
  | .First => if notes.length < 1 then Option.none else Option.some (bumpLast (rotL 1 notes))
  | .Second => if notes.length < 2 then Option.none else Option.some (bumpLast (rotL 2 notes))
  | .Third => if notes.length < 3 then Option.none else Option.some (bumpLast (rotL 3 notes))

/-- `Chord::close_voicing` from `chord/mod.rs`: lower every non-bass note one
octave at a time while it lies more than one octave above the bass; the loop's
result is the octave clamp to `bass_octave + 1`. -/
def closeVoicing : List Tuning → List Tuning
  | [] => []
  | b :: rest =>
    b :: rest.map (fun n => if b.octave + 1 < n.octave then n.withOctave (b.octave + 1) else n)

/-- `Chord::open_voicing` from `chord/mod.rs`: the running octave gains one at
every even index `i ≥ 2`, so the note at index `i ≥ 1` (which is entry `k = i - 1`
of the tail) ends at `bass_octave + i / 2`. -/
def openVoicing : List Tuning → List Tuning
  | [] => []
  | b :: rest =>
    b :: (List.range rest.length).zipWith
      (fun k n => n.withOctave (b.octave + ((k + 1) / 2 : Nat))) rest

/-- `Chord::apply_voicing` from `chord/mod.rs`; `Drop2`/`Drop3`/`Cluster` are
`todo!()` in the source, modelled as `None`. -/
def applyVoicing (voicing : Voicing) (notes : List Tuning) : Option (List Tuning) :=
  match voicing with
  | .ClosePosition => Option.some (closeVoicing notes)
  | .OpenPosition => Option.some (openVoicing notes)
  | .Drop2 => Option.none
  | .Drop3 => Option.none
  | .Cluster => Option.none

/-- `Chord::components` from `chord/mod.rs`: root plus transposed intervals,
then inversion, then voicing; `None` models the panicking paths (failed
transposition, too-short rotation, unimplemented voicing). -/
def components (c : Chord) : Option (List Tuning) :=
  match addAll c.root (chordIntervals c) with
  | Option.none => Option.none
  | Option.some rest =>
    match applyInversion c.inversion (c.root :: rest) with
    | Option.none => Option.none
    | Option.some inverted => applyVoicing c.voicing inverted

/-- Lexicographic minimum on `(number, index)` pairs, as taken by
`BTreeSet::iter().min()` in `Chord::analyze_from`. -/
def lexMin (a b : Int × Nat) : Int × Nat :=
  if b.1 < a.1 ∨ (b.1 = a.1 ∧ b.2 < a.2) then b else a

/-- Relative intervals from a candidate root class to the other input classes
(`intervals_sorted` in `Chord::analyze_from`). -/
def relIntervals (tuningClasses : List Int) (rootClass : Int) : List Interval :=
  (tuningClasses.filter (fun c => c ≠ rootClass)).filterMap
    (fun c => (Interval.fromSemitones (c - rootClass)).toOption)

/-- One candidate of the root-candidate loop in `Chord::analyze_from`:
analyze the relative intervals, pick the first input tuning of the candidate
class as root, and attach the residual intervals as `Add` extensions
(transposed from the root; the modelled residual conversion follows the spec's
"leftover unexplained intervals as residual extensions"). -/
def candidateFor (tunings : List Tuning) (t0 : Tuning) (tuningClasses : List Int)
    (rootClass : Int) : Option Chord :=
  match ChordQuality.analyzeScored (relIntervals tuningClasses rootClass) with
  | .error _ => Option.none
  | .ok qr =>
    let root := (tunings.find? (fun t => t.classSemitones = rootClass)).getD t0
    let exts := qr.2.filterMap (fun i => (root.addInterval i).toOption.map ExtensionAlter.Add)
    Option.some ((construct root .Triad qr.1).withExtension exts)

/-- The input tuning with the smallest `(number, index)` pair, as selected via
`BTreeSet::iter().min()` in `Chord::analyze_from`. -/
def minTuningOf (tunings : List Tuning) (t0 : Tuning) : Tuning :=
  (tunings.get?
    ((tunings.enum.map (fun p => (p.2.number, p.1))).foldl lexMin (t0.number, 0)).2).getD t0

/-- The successful root candidates of `Chord::analyze_from`, one per distinct
input pitch class (in ascending class order, as iterated from the `BTreeSet`). -/
def chordCandidates (tunings : List Tuning) (t0 : Tuning) : List Chord :=
  (sortedDedup (tunings.map Tuning.classSemitones)).filterMap
    (candidateFor tunings t0 (sortedDedup (tunings.map Tuning.classSemitones)))

/-- `Chord::analyze_from` from `chord/parser.rs`: empty input fails with
`InvalidPitch`; otherwise each distinct pitch class is tried as a root, and
among the successful candidates the one rooted at the lowest-numbered input
tuning is preferred, falling back to the first candidate; no candidate at all
fails with `UnsupportedChord`. -/
def analyzeFrom (tunings : List Tuning) : Except MusicError Chord :=
  match tunings with
  | [] => .error .InvalidPitch
  | t0 :: _ =>
    match (chordCandidates tunings t0).find? (fun c => c.root = minTuningOf tunings t0) with
    | Option.some c => .ok c
    | Option.none =>
      match chordCandidates tunings t0 with
      | [] => .error .UnsupportedChord
      | c :: _ => .ok c

end Chord

/-! Supporting lemmas. -/

/-- Sharpening a pitch class without leaving its diatonic degree raises its
semitone index by exactly one, and stays off the `None` sentinel. -/
theorem pc_sharp_step :
    ∀ pc : PitchClass, pc ≠ .None →
      (pc.sharp.degree = pc.degree →
        pc.sharp.semitones = pc.semitones + 1 ∧ pc.sharp ≠ .None) := by
  intro pc
  cases pc <;> decide

/-- Flattening a pitch class without leaving its diatonic degree lowers its
semitone index by exactly one, and stays off the `None` sentinel. -/
theorem pc_flat_step :
    ∀ pc : PitchClass, pc ≠ .None →
      (pc.flat.degree = pc.degree →
        pc.flat.semitones = pc.semitones - 1 ∧ pc.flat ≠ .None) := by
  intro pc
  cases pc <;> decide

/-- The accidental-spending walk preserves `semitones + accidental budget` and
never reaches `None`, for any fuel not exceeding the budget's absolute value. -/
theorem addAccGo_sem :
    ∀ (n : Nat) (pc : PitchClass) (acc : Int), pc ≠ .None → n ≤ acc.natAbs →
      (PitchClass.addAccGo pc acc n).1.semitones + (PitchClass.addAccGo pc acc n).2 =
          pc.semitones + acc ∧
        (PitchClass.addAccGo pc acc n).1 ≠ .None := by
  intro n
  induction n with
  | zero => intro pc acc hpc _; exact ⟨rfl, hpc⟩
  | succ n ih =>
    intro pc acc hpc hle
    have hacc : acc ≠ 0 := by
      intro h
      subst h
      simp at hle
    by_cases hpos : 0 < acc
    · have hstep := pc_sharp_step pc hpc
      have hsign : acc.sign = 1 := Int.sign_eq_one_iff_pos.mpr hpos
      simp only [PitchClass.addAccGo, if_pos hpos]
      split
      · rename_i hdeg
        have hs := hstep hdeg
        have hrec := ih pc.sharp (acc - acc.sign) hs.2 (by omega)
        rw [hrec.1, hs.1]
        refine ⟨by omega, hrec.2⟩
      · exact ⟨rfl, hpc⟩
    · have hneg : acc < 0 := by omega
      have hstep := pc_flat_step pc hpc
      have hsign : acc.sign = -1 := Int.sign_eq_neg_one_iff_neg.mpr hneg
      simp only [PitchClass.addAccGo, if_neg hpos]
      split
      · rename_i hdeg
        have hs := hstep hdeg
        have hrec := ih pc.flat (acc - acc.sign) hs.2 (by omega)
        rw [hrec.1, hs.1]
        refine ⟨by omega, hrec.2⟩
      · exact ⟨rfl, hpc⟩

/-- `add_accidentals` preserves the absolute semitone content
`semitones + accidentals` and never reaches `None`. -/
theorem addAccidentals_sem (pc : PitchClass) (acc : Int) (hpc : pc ≠ .None) :
    (pc.addAccidentals acc).1.semitones + (pc.addAccidentals acc).2 =
        pc.semitones + acc ∧
      (pc.addAccidentals acc).1 ≠ .None :=
  addAccGo_sem acc.natAbs pc acc hpc le_rfl

/-- The octave-correction walk preserves `12 * octave + difference`. -/
theorem normGo_inv :
    ∀ (n : Nat) (est diff : Int),
      12 * (Tuning.normGo est diff n).1 + (Tuning.normGo est diff n).2 =
        12 * est + diff := by
  intro n
  induction n with
  | zero => intro est diff; rfl
  | succ n ih =>
    intro est diff
    simp only [Tuning.normGo]
    split
    · rw [ih]
      ring
    · rfl

/-- `normLoop` preserves `12 * octave + difference`. -/
theorem normLoop_inv (est diff : Int) :
    12 * (Tuning.normLoop est diff).1 + (Tuning.normLoop est diff).2 =
      12 * est + diff :=
  normGo_inv diff.natAbs est diff

/-- The fuel `diff.natAbs` given to `normGo` is sufficient: the loop reaches
its exit condition (`|diff| ≤ 10`) before the fuel runs out, so the fuelled
model computes exactly what the source's unbounded `while` loop computes. -/
theorem normGo_fuel_sufficient :
    ∀ (n : Nat) (est diff : Int), diff.natAbs ≤ n →
      |(Tuning.normGo est diff n).2| ≤ 10 := by
  intro n
  induction n with
  | zero =>
    intro est diff h
    have : diff = 0 := by omega
    subst this
    simp [Tuning.normGo]
  | succ n ih =>
    intro est diff h
    simp only [Tuning.normGo]
    split
    · rename_i hgt
      have hgt' : 10 < (diff.natAbs : Int) := by rwa [Int.abs_eq_natAbs] at hgt
      by_cases hp : 0 < diff
      · have hs : diff.sign = 1 := Int.sign_eq_one_iff_pos.mpr hp
        rw [hs]
        apply ih
        omega
      · have hn : diff < 0 := by omega
        have hs : diff.sign = -1 := Int.sign_eq_neg_one_iff_neg.mpr hn
        rw [hs]
        apply ih
        omega
    · rename_i hle
      show |diff| ≤ 10
      omega

/-- `PitchClass::from_degree` never returns the `None` sentinel: the
`rem_euclid(7)` reduction always lands on a natural letter. -/
theorem fromDegree_ne_none (d : Int) : PitchClass.fromDegree d ≠ .None := by
  unfold PitchClass.fromDegree
  have h0 : 0 ≤ (d - 1).emod 7 := Int.emod_nonneg _ (by norm_num)
  have h1 : (d - 1).emod 7 < 7 := Int.emod_lt_of_pos _ (by norm_num)
  set x := (d - 1).emod 7 with hx
  have : x = 0 ∨ x = 1 ∨ x = 2 ∨ x = 3 ∨ x = 4 ∨ x = 5 ∨ x = 6 := by omega
  rcases this with h | h | h | h | h | h | h <;> rw [h] <;> decide

/-- The successful branch of `add_interval` lands on the absolute semitone
index `(octave+1)*12 + interval + class + accidentals - 1`, independently of
the octave estimate, and never on the `None` class. -/
theorem addIntervalCore_exact (t : Tuning) (i : Interval) (est : Int) :
    (Tuning.addIntervalCore t i est).numberExact =
        (t.octave + 1) * 12 + (i.semitones + t.cls.semitones + t.accidentals) - 1 ∧
      (Tuning.addIntervalCore t i est).cls ≠ .None := by
  unfold Tuning.addIntervalCore
  set pc0 := PitchClass.fromDegree
    (t.cls.degree + i.degree * i.semitones.sign - i.semitones.sign) with hpc0
  set d0 := i.semitones + t.cls.semitones + t.accidentals -
    (pc0.semitones + (est - t.octave) * 12) with hd0
  have hNL := normLoop_inv est d0
  have hAA := addAccidentals_sem pc0 (Tuning.normLoop est d0).2 (fromDegree_ne_none _)
  constructor
  · show ((Tuning.normLoop est d0).1 + 1) * 12 +
      (pc0.addAccidentals (Tuning.normLoop est d0).2).1.semitones - 1 +
      (pc0.addAccidentals (Tuning.normLoop est d0).2).2 = _
    omega
  · exact hAA.2

/-- A successful `add_interval` call is semitone-exact: the unclamped number of
the result is the unclamped number of the input plus the interval's semitones,
and the result's class is never `None`. -/
theorem addInterval_exact (t : Tuning) (i : Interval) (t' : Tuning)
    (h : t.addInterval i = .ok t') :
    t'.numberExact =
        (t.octave + 1) * 12 + (i.semitones + t.cls.semitones + t.accidentals) - 1 ∧
      t'.cls ≠ .None := by
  unfold Tuning.addInterval at h
  split at h
  · exact absurd h (by simp)
  · have := addIntervalCore_exact t i (t.estimatedOctave i)
    cases h
    exact this

/-- A successful `from_semitones` stores exactly the requested semitones. -/
theorem fromSemitones_semitones (s : Int) (i : Interval)
    (h : Interval.fromSemitones s = .ok i) : i.semitones = s := by
  unfold Interval.fromSemitones at h
  split at h
  · exact absurd h (by simp)
  · cases h
    rfl

/-- `negate` flips the sign of the stored semitones. -/
theorem negate_semitones (i : Interval) : i.negate.semitones = -i.semitones := rfl

/-! Claim C1. -/

/-- C1 (amended): `Tuning::add_interval` returns `InvalidOctave` exactly when
the estimated resulting octave falls outside `[0, 11]` — not the documented
`[0, 10]` — and otherwise returns a new `Tuning`. -/
theorem c1_invalid_octave_behavior :
    ∀ (t : Tuning) (i : Interval),
      ((∃ t', t.addInterval i = .ok t') ↔
        (0 ≤ t.estimatedOctave i ∧ t.estimatedOctave i ≤ 11)) ∧
      (t.estimatedOctave i < 0 ∨ 11 < t.estimatedOctave i →
        t.addInterval i = .error (.InvalidOctave (t.estimatedOctave i))) := by
  intro t i
  unfold Tuning.addInterval
  by_cases h : t.estimatedOctave i < 0 ∨ 11 < t.estimatedOctave i
  · rw [if_pos h]
    refine ⟨⟨fun ⟨t', ht⟩ => absurd ht (by simp), fun hr => by omega⟩, fun _ => rfl⟩
  · rw [if_neg h]
    refine ⟨⟨fun _ => by omega, fun _ => ⟨_, rfl⟩⟩, fun hc => absurd hc h⟩

/-- C1 witness: transposing `C12` by a perfect fifth estimates octave 12 and
fails with `InvalidOctave`. -/
theorem c1_invalid_octave_witness :
    Tuning.addInterval (⟨.C, 0, 12⟩ : Tuning) Interval.perfectFifth =
      .error (.InvalidOctave (Tuning.estimatedOctave ⟨.C, 0, 12⟩ Interval.perfectFifth)) :=
  (c1_invalid_octave_behavior ⟨.C, 0, 12⟩ Interval.perfectFifth).2 (by decide)

/-- C1 counterexample: `Tuning(C,10).add_interval(perfect_fifth)` does not fail
with `InvalidOctave` — it succeeds, returning `G10`; and the accepted boundary
is octave 11, not 10: `B10 + minor second` succeeds with a result in octave 11. -/
theorem c1_invalid_octave_counterexample :
    Tuning.addInterval (Tuning.new .C 10) Interval.perfectFifth = .ok (Tuning.new .G 10) ∧
    Tuning.addInterval (Tuning.new .B 10) Interval.minorSecond =
      .ok (⟨.C, 0, 11⟩ : Tuning) := by
  decide

/-! Claim C2. -/

/-- C2 (amended): enharmonic simplification preserves the absolute semitone
number `number()` for every tuning on which `simple()` succeeds and on which
the saturating `i8` arithmetic inside `number()` is exact (no clamping) for
both the input and the result. -/
theorem c2_simple_preserves_number (t t' : Tuning)
    (hs : t.simple = some t')
    (h1 : t.number = t.numberExact) (h2 : t'.number = t'.numberExact) :
    t'.number = t.number := by
  unfold Tuning.simple at hs
  split at hs
  · exact absurd hs (by simp)
  · rename_i i hfs
    split at hs
    · exact absurd hs (by simp)
    · rename_i t'' hai
      cases hs
      have hex := (addInterval_exact _ _ _ hai).1
      have hsem := fromSemitones_semitones _ _ hfs
      simp only [Tuning.new] at hex
      rw [h2, h1]
      unfold Tuning.numberExact at hex ⊢
      omega

/-- C2 witness: simplifying C4 carrying one sharp yields Db4 with the same
number 61. -/
theorem c2_simple_preserves_number_witness :
    Tuning.number (⟨.Db, 0, 4⟩ : Tuning) = Tuning.number (⟨.C, 1, 4⟩ : Tuning) :=
  c2_simple_preserves_number ⟨.C, 1, 4⟩ ⟨.Db, 0, 4⟩ (by decide) (by decide) (by decide)

/-- C2 counterexample: for B9 carrying ten flats, `simple()` succeeds (yielding
C#9) but changes `number()` from 117 to 121, because `number()`'s saturating
`i8` chain clamps the input's intermediate value at 127. -/
theorem c2_simple_counterexample :
    Tuning.simple (⟨.B, -10, 9⟩ : Tuning) = some (⟨.Cs, 0, 9⟩ : Tuning) ∧
    Tuning.number (⟨.Cs, 0, 9⟩ : Tuning) ≠ Tuning.number (⟨.B, -10, 9⟩ : Tuning) := by
  decide

/-! Claim C3. -/

/-- C3 (amended): transposing by a simple interval and back
(`t.add_interval(i).add_interval(i.negate())`) preserves the absolute semitone
number `number()` whenever both transpositions succeed and the saturating `i8`
arithmetic inside `number()` is exact (no clamping) on the first and last
tunings. -/
theorem c3_transposition_roundtrip (t t1 t2 : Tuning) (i : Interval)
    (_hsimple : |i.semitones| ≤ 12)
    (h1 : t.addInterval i = .ok t1)
    (h2 : t1.addInterval i.negate = .ok t2)
    (hx : t.number = t.numberExact) (hy : t2.number = t2.numberExact) :
    t2.number = t.number := by
  have e1 := (addInterval_exact _ _ _ h1).1
  have e2 := (addInterval_exact _ _ _ h2).1
  rw [negate_semitones] at e2
  rw [hy, hx]
  unfold Tuning.numberExact at e1 e2 ⊢
  omega

/-- C3 witness: C4 with one sharp, up a minor second to D4 and back down,
returns as C#4 — a different spelling with the same number 61. -/
theorem c3_transposition_roundtrip_witness :
    Tuning.number (⟨.Cs, 0, 4⟩ : Tuning) = Tuning.number (⟨.C, 1, 4⟩ : Tuning) :=
  c3_transposition_roundtrip ⟨.C, 1, 4⟩ ⟨.D, 0, 4⟩ ⟨.Cs, 0, 4⟩ Interval.minorSecond
    (by decide) (by decide) (by decide) (by decide) (by decide)

/-- C3 counterexample: for B9 carrying ten flats and the unison interval, both
transpositions succeed but the round trip lands on Bb9 with nine flats, whose
`number()` (118) differs from the original's (117) because of `i8` saturation. -/
theorem c3_transposition_counterexample :
    |Interval.unison.semitones| ≤ 12 ∧
    Tuning.addInterval ⟨.B, -10, 9⟩ Interval.unison = .ok ⟨.Bb, -9, 9⟩ ∧
    Tuning.addInterval ⟨.Bb, -9, 9⟩ Interval.unison.negate = .ok ⟨.Bb, -9, 9⟩ ∧
    Tuning.number (⟨.Bb, -9, 9⟩ : Tuning) ≠ Tuning.number (⟨.B, -10, 9⟩ : Tuning) := by
  decide

/-! Claim C4. -/

/-- Valid (quality, degree) combinations per the spec's table: Perfect on
octave-reduced degrees {1,4,5,8}, Major/Minor on {2,3,6,7}, Augmented and
Diminished on any degree. -/
def specValidCombo (q : IntervalQuality) (d : Int) : Bool :=
  let dn := (d - 1).emod 7 + 1
  match q with
  | .Perfect => dn == 1 || dn == 4 || dn == 5 || dn == 8
  | .Major => dn == 2 || dn == 3 || dn == 6 || dn == 7
  | .Minor => dn == 2 || dn == 3 || dn == 6 || dn == 7
  | .Augmented => true
  | .Diminished => true

/-- The spec's semitone formula: `12*octaves + natural-table entry
{0,2,4,5,7,9,11} + quality adjustment`. -/
def specSemitones (q : IntervalQuality) (d : Int) : Int :=
  let dn := (d - 1).emod 7 + 1
  let octaves := (d - 1).ediv 7
  let base : Int :=
    if dn = 1 then 0
    else if dn = 2 then 2
    else if dn = 3 then 4
    else if dn = 4 then 5
    else if dn = 5 then 7
    else if dn = 6 then 9
    else 11
  let isPerfectDeg := dn = 1 ∨ dn = 4 ∨ dn = 5 ∨ dn = 8
  let adj : Int :=
    match q with
    | .Perfect => 0
    | .Major => 0
    | .Minor => -1
    | .Augmented => 1
    | .Diminished => if isPerfectDeg then -1 else -2
  12 * octaves + base + adj

/-- Per-degree check for claim C4: `from_quality_degree` succeeds exactly on
the valid combinations, failing ones get `InvalidIntervalQuality`, and a
successful interval's semitones are the spec formula reduced to `i8`
two's-complement — equal to the plain formula whenever that fits in an `i8`. -/
def c4check (q : IntervalQuality) (d : Int) : Bool :=
  match Interval.fromQualityDegree q d with
  | .ok i =>
    specValidCombo q d && decide (i.semitones = i8Wrap (specSemitones q d)) &&
      (!(decide (specSemitones q d ≤ 127)) || decide (i.semitones = specSemitones q d))
  | .error e => !(specValidCombo q d) && decide (e = .InvalidIntervalQuality)

/-- C4 (amended): over the whole admissible degree range 1..=127,
`from_quality_degree` succeeds exactly for the valid (quality, degree)
combinations and fails with `InvalidIntervalQuality` otherwise; for valid
pairs the stored semitone count is the formula `12*octaves + natural + adjustment`
wrapped to `i8`, which equals the plain formula whenever it is at most 127
(this covers the hand table, e.g. P1=0, M3=4, P5=7, m7=10, P8=12). -/
theorem c4_from_quality_degree :
    (∀ n : Nat, n < 127 →
      c4check .Perfect ((n : Int) + 1) = true ∧
      c4check .Major ((n : Int) + 1) = true ∧
      c4check .Minor ((n : Int) + 1) = true ∧
      c4check .Augmented ((n : Int) + 1) = true ∧
      c4check .Diminished ((n : Int) + 1) = true) ∧
    (Interval.unison.semitones = 0 ∧ Interval.majorThird.semitones = 4 ∧
      Interval.perfectFifth.semitones = 7 ∧ Interval.minorSeventh.semitones = 10 ∧
      Interval.octaveInterval.semitones = 12) := by
  constructor
  · decide
  · decide

/-- C4 witness: the check holds at the perfect fifth. -/
theorem c4_from_quality_degree_witness : c4check .Perfect 5 = true := by
  simpa using (c4_from_quality_degree.1 4 (by decide)).1

/-- C4 counterexample: for the valid pair (Perfect, 78) the spec formula gives
132 semitones, but the `i8`-typed field wraps to −124, so the claimed semitone
equation fails on compound degrees whose span exceeds an `i8`. -/
theorem c4_from_quality_degree_counterexample :
    Interval.fromQualityDegree .Perfect 78 = .ok ⟨.Perfect, 78, -124, false⟩ ∧
      specSemitones .Perfect 78 = 132 := by
  decide

/-! Claim C5. -/

/-- A successful catalog scan returns a member whose reduced class set equals
the scanned set. -/
theorem findQ_sound :
    ∀ (cs : List ChordQuality) (s : List Int) (q : ChordQuality),
      ChordQuality.findQ s cs = .ok q → q ∈ cs ∧ classSetOf q.intervalsOf = s := by
  intro cs
  induction cs with
  | nil => intro s q h; exact absurd h (by simp [ChordQuality.findQ])
  | cons c rest ih =>
    intro s q h
    unfold ChordQuality.findQ at h
    by_cases hc : classSetOf c.intervalsOf = s
    · rw [if_pos hc] at h
      cases h
      exact ⟨List.mem_cons_self c rest, hc⟩
    · rw [if_neg hc] at h
      obtain ⟨hm, he⟩ := ih s q h
      exact ⟨List.mem_cons_of_mem c hm, he⟩

/-- When some catalog entry's class set equals the scanned set, the scan
succeeds, returning an entry with that class set. -/
theorem findQ_finds :
    ∀ (cs : List ChordQuality) (s : List Int),
      (∃ c ∈ cs, classSetOf c.intervalsOf = s) →
      ∃ q', ChordQuality.findQ s cs = .ok q' ∧ classSetOf q'.intervalsOf = s := by
  intro cs
  induction cs with
  | nil => intro s h; simp at h
  | cons c rest ih =>
    intro s h
    unfold ChordQuality.findQ
    by_cases hc : classSetOf c.intervalsOf = s
    · exact ⟨c, by rw [if_pos hc], hc⟩
    · rw [if_neg hc]
      apply ih
      rcases h with ⟨c', hm, hs⟩
      rcases List.mem_cons.mp hm with rfl | hm'
      · exact absurd hs hc
      · exact ⟨c', hm', hs⟩

/-- The catalog scan fails (with `InvalidChordQuality`) exactly when no
entry's class set equals the scanned set. -/
theorem findQ_error_iff :
    ∀ (cs : List ChordQuality) (s : List Int),
      ChordQuality.findQ s cs = .error .InvalidChordQuality ↔
        ∀ c ∈ cs, classSetOf c.intervalsOf ≠ s := by
  intro cs
  induction cs with
  | nil => intro s; simp [ChordQuality.findQ]
  | cons c rest ih =>
    intro s
    unfold ChordQuality.findQ
    by_cases hc : classSetOf c.intervalsOf = s
    · rw [if_pos hc]
      simp [hc]
    · rw [if_neg hc]
      rw [ih]
      constructor
      · intro h c' hm
        rcases List.mem_cons.mp hm with rfl | hm'
        · exact hc
        · exact h c' hm'
      · intro h c' hm'
        exact h c' (List.mem_cons_of_mem c hm')

/-- Every `ChordQuality` is in the catalog iteration. -/
theorem mem_qualityList : ∀ q : ChordQuality, q ∈ ChordQuality.qualityList := by
  intro q
  cases q <;> decide

/-- The 23 catalog templates have pairwise distinct reduced class sets. -/
theorem catalog_sets_nodup :
    (ChordQuality.qualityList.map (fun c => classSetOf c.intervalsOf)).Nodup := by
  decide

/-- C5 (amended): `ChordQuality::analyze_from` returns exactly the template
whose octave-reduced class set equals the input's, and fails with
`InvalidChordQuality` whenever no template's set is an exact match — there is
no scoring fallback and no residual-extension computation in `quality.rs`. -/
theorem c5_analyze_exact_match :
    ∀ (l : List Interval) (q : ChordQuality),
      (ChordQuality.analyzeFromQ l = .ok q ↔
        classSetOf q.intervalsOf = classSetOf l) ∧
      (ChordQuality.analyzeFromQ l = .error .InvalidChordQuality ↔
        ∀ q' : ChordQuality, classSetOf q'.intervalsOf ≠ classSetOf l) := by
  intro l q
  constructor
  · constructor
    · intro h
      exact (findQ_sound _ _ _ h).2
    · intro h
      obtain ⟨q', hq', hs'⟩ :=
        findQ_finds ChordQuality.qualityList (classSetOf l) ⟨q, mem_qualityList q, h⟩
      have hqq : q' = q :=
        List.inj_on_of_nodup_map catalog_sets_nodup
          (findQ_sound _ _ _ hq').1 (mem_qualityList q) (by rw [hs', h])
      rw [← hqq]
      exact hq'
  · constructor
    · intro h q'
      exact (findQ_error_iff ChordQuality.qualityList (classSetOf l)).mp h q'
        (mem_qualityList q')
    · intro h
      exact (findQ_error_iff ChordQuality.qualityList (classSetOf l)).mpr
        (fun c _ => h c)

/-- C5 witness: a dominant-seventh interval stack analyzes back to `Dominant7`. -/
theorem c5_analyze_exact_match_witness :
    ChordQuality.analyzeFromQ (ChordQuality.intervalsOf .Dominant7) = .ok .Dominant7 :=
  (c5_analyze_exact_match (ChordQuality.intervalsOf .Dominant7) .Dominant7).1.mpr rfl

/-- C5 counterexample: for the single-interval input `[major third]` no exact
template match exists, and the code fails with `InvalidChordQuality` even
though the Major template explains every input tone (0 absent, 1 present), so
the claimed best-scoring fallback does not happen. -/
theorem c5_analyze_counterexample :
    ChordQuality.analyzeFromQ [Interval.majorThird] = .error .InvalidChordQuality ∧
    ChordQuality.absentCount (classSetOf [Interval.majorThird]) .Major = 0 ∧
    ChordQuality.presentCount (classSetOf [Interval.majorThird]) .Major = 1 := by
  decide

/-! Claim C6. -/

/-- C6 code evaluation: `Interval::consonance` classifies major/minor thirds
and the major sixth as Dissonant, the major second as Imperfect, and both
sevenths as Consonant — contradicting the documented classification (thirds
and sixths imperfectly consonant, seconds and sevenths dissonant), while the
perfect fourth/fifth do come out Consonant. -/
theorem c6_consonance_eval :
    Interval.consonance Interval.majorThird = .Dissonant ∧
    Interval.consonance Interval.minorThird = .Dissonant ∧
    Interval.consonance Interval.majorSixth = .Dissonant ∧
    Interval.consonance Interval.minorSixth = .Dissonant ∧
    Interval.consonance Interval.majorSecond = .Imperfect ∧
    Interval.consonance Interval.minorSecond = .Imperfect ∧
    Interval.consonance Interval.majorSeventh = .Consonant ∧
    Interval.consonance Interval.minorSeventh = .Consonant ∧
    Interval.consonance Interval.perfectFourth = .Consonant ∧
    Interval.consonance Interval.perfectFifth = .Consonant ∧
    Interval.consonance Interval.unison = .Consonant ∧
    Interval.consonance Interval.octaveInterval = .Consonant := by
  decide

/-! Claim C7. -/

/-- A successful walk produces one note per step. -/
theorem walk_len :
    ∀ (steps : List Interval) (cur : Tuning) (l : List Tuning),
      Scale.walkSteps cur steps = .ok l → l.length = steps.length := by
  intro steps
  induction steps with
  | nil =>
    intro cur l h
    cases h
    rfl
  | cons i rest ih =>
    intro cur l h
    unfold Scale.walkSteps at h
    split at h
    · exact absurd h (by simp)
    · rename_i t _
      split at h
      · exact absurd h (by simp)
      · rename_i l' hwalk
        cases h
        simp [ih t l' hwalk]

/-- Each note of a successful walk is the previous note transposed by the
matching step. -/
theorem walk_step :
    ∀ (steps : List Interval) (cur : Tuning) (l : List Tuning),
      Scale.walkSteps cur steps = .ok l →
      ∀ (k : Nat) (a b : Tuning) (iv : Interval),
        (cur :: l).get? k = some a → (cur :: l).get? (k + 1) = some b →
        steps.get? k = some iv → a.addInterval iv = .ok b := by
  intro steps
  induction steps with
  | nil =>
    intro cur l h k a b iv _ _ h3
    simp at h3
  | cons i rest ih =>
    intro cur l h k a b iv h1 h2 h3
    unfold Scale.walkSteps at h
    split at h
    · exact absurd h (by simp)
    · rename_i t hadd
      split at h
      · exact absurd h (by simp)
      · rename_i l' hwalk
        cases h
        cases k with
        | zero =>
          cases h1
          cases h2
          cases h3
          exact hadd
        | succ k' =>
          exact ih t l' hwalk k' a b iv h1 h2 h3

/-- `repSteps` has length `pattern length × repetitions`. -/
theorem repSteps_length (ivs : List Interval) :
    ∀ m : Nat, (Scale.repSteps ivs m).length = ivs.length * m := by
  intro m
  induction m with
  | zero => simp [Scale.repSteps]
  | succ m ih =>
    simp [Scale.repSteps, ih]
    ring

/-- A position inside `repSteps` reads the pattern entry at the position
reduced modulo the pattern length. -/
theorem repSteps_get (ivs : List Interval) :
    ∀ (m k : Nat), k < ivs.length * m →
      (Scale.repSteps ivs m).get? k = ivs.get? (k % ivs.length) := by
  intro m
  induction m with
  | zero =>
    intro k h
    simp at h
  | succ m ih =>
    intro k h
    unfold Scale.repSteps
    by_cases hk : k < ivs.length
    · rw [List.get?_append hk, Nat.mod_eq_of_lt hk]
    · push_neg at hk
      rw [List.get?_append_right hk]
      rw [Nat.mul_succ] at h
      rw [ih (k - ivs.length) (by omega)]
      rw [Nat.mod_eq_sub_mod hk]

/-- C7: a successful `generate_tunings(octaves)` call returns the cumulative
walk of the root through the pattern repeated `octaves+1` times — a list of
length `pattern.len()*(octaves+1)+1` beginning with the root, in which each
successor is the previous note transposed by the next pattern step; and the G4
major scale at `octaves = 0` is exactly `[G4,A4,B4,C5,D5,E5,F#5,G5]`. -/
theorem c7_generate_tunings :
    (∀ (s : Scale) (octaves : Nat) (l : List Tuning) (ivs : List Interval),
      Scale.generateTunings s octaves = .ok l →
      getIntervals s.scaleType = .ok ivs →
      l.length = ivs.length * (octaves + 1) + 1 ∧
      l.head? = some s.root ∧
      ∀ (k : Nat) (a b : Tuning) (iv : Interval),
        l.get? k = some a → l.get? (k + 1) = some b →
        ivs.get? (k % ivs.length) = some iv → a.addInterval iv = .ok b) ∧
    Scale.generateTunings ⟨Tuning.new .G 4, .Major⟩ 0 =
      .ok [Tuning.new .G 4, Tuning.new .A 4, Tuning.new .B 4, ⟨.C, 0, 5⟩,
        ⟨.D, 0, 5⟩, ⟨.E, 0, 5⟩, ⟨.Fs, 0, 5⟩, ⟨.G, 0, 5⟩] := by
  constructor
  · intro s octaves l ivs h hIv
    unfold Scale.generateTunings at h
    split at h
    · exact absurd h (by simp)
    · rename_i ivs' hIv'
      have hee : ivs' = ivs := by
        rw [hIv'] at hIv
        exact Except.ok.inj hIv
      subst hee
      split at h
      · exact absurd h (by simp)
      rename_i l' hwalk
      cases h
      have hlen := walk_len _ _ _ hwalk
      have hrep := repSteps_length ivs' (octaves + 1)
      refine ⟨by simp [hlen, hrep], rfl, ?_⟩
      intro k a b iv h1 h2 h3
      have hk : k + 1 < (s.root :: l').length := by
        by_contra hh
        push_neg at hh
        rw [List.get?_eq_none.mpr hh] at h2
        exact absurd h2 (by simp)
      have hk' : k < ivs'.length * (octaves + 1) := by
        simp only [List.length_cons, hlen, hrep] at hk
        omega
      have hstep : (Scale.repSteps ivs' (octaves + 1)).get? k = some iv := by
        rw [repSteps_get ivs' (octaves + 1) k hk']
        exact h3
      exact walk_step _ _ _ hwalk k a b iv h1 h2 hstep
  · decide

/-- C7 witness: the generated G-major note list has the claimed length
`pattern.len() * (octaves+1) + 1 = 7 * 1 + 1`. -/
theorem c7_generate_tunings_witness :
    ([Tuning.new .G 4, Tuning.new .A 4, Tuning.new .B 4, ⟨.C, 0, 5⟩,
      ⟨.D, 0, 5⟩, ⟨.E, 0, 5⟩, ⟨.Fs, 0, 5⟩, (⟨.G, 0, 5⟩ : Tuning)] : List Tuning).length =
      ([⟨.Major, 2, 2, false⟩, ⟨.Major, 2, 2, false⟩, ⟨.Minor, 2, 1, false⟩,
        ⟨.Major, 2, 2, false⟩, ⟨.Major, 2, 2, false⟩, ⟨.Major, 2, 2, false⟩,
        (⟨.Minor, 2, 1, false⟩ : Interval)] : List Interval).length * (0 + 1) + 1 :=
  (c7_generate_tunings.1 ⟨Tuning.new .G 4, .Major⟩ 0 _ _ (by decide) (by decide)).1

/-! Claim C8. -/

/-- Bounds of Rust's truncating `% 12`: the result lies strictly between −12 and 12. -/
theorem tmod_twelve_bounds (a : Int) : -12 < a.tmod 12 ∧ a.tmod 12 < 12 := by
  refine ⟨?_, Int.tmod_lt_of_pos a (by norm_num)⟩
  rcases a with m | m
  · have h := Int.tmod_nonneg (a := Int.ofNat m) 12 (Int.ofNat_nonneg m)
    omega
  · have h : Int.tmod (Int.negSucc m) 12 = -(((m + 1) % 12 : Nat) : Int) := rfl
    have h12 : (m + 1) % 12 < 12 := Nat.mod_lt _ (by norm_num)
    omega

/-- Truncating and Euclidean `% 12` agree on nonnegative arguments. -/
theorem tmod_twelve_eq_emod (a : Int) (h : 0 ≤ a) : a.tmod 12 = a.emod 12 :=
  Int.tmod_eq_emod h (by norm_num)

/-- Explicit decomposition of the Euclidean `% 12`: the residue is the
argument shifted by a multiple of 12 into `[0, 12)`. -/
theorem emod_twelve_decomp (a : Int) :
    ∃ k : Int, a.emod 12 = a - 12 * k ∧ 0 ≤ a - 12 * k ∧ a - 12 * k < 12 := by
  have h0 : a.emod 12 = a - 12 * (a / 12) := Int.emod_def a 12
  have h1 : 0 ≤ a.emod 12 := Int.emod_nonneg a (by norm_num)
  have h2 : a.emod 12 < 12 := Int.emod_lt_of_pos a (by norm_num)
  exact ⟨a / 12, h0, by omega, by omega⟩

/-- `Int.emod` is the `%` of the `Mod` instance (definitionally). -/
theorem emod_eq_mod (a b : Int) : a.emod b = a % b := rfl

/-- The accidental-spending walk never grows the remaining budget. -/
theorem addAccGo_abs :
    ∀ (n : Nat) (pc : PitchClass) (acc : Int),
      |(PitchClass.addAccGo pc acc n).2| ≤ |acc| := by
  intro n
  induction n with
  | zero => intro pc acc; exact le_refl _
  | succ n ih =>
    intro pc acc
    have hstep : |acc - acc.sign| ≤ |acc| := by
      rcases lt_trichotomy acc 0 with h | h | h
      · rw [Int.sign_eq_neg_one_iff_neg.mpr h, abs_of_neg h, abs_of_nonpos (by omega)]
        omega
      · simp [h]
      · rw [Int.sign_eq_one_iff_pos.mpr h, abs_of_pos h, abs_of_nonneg (by omega)]
        omega
    by_cases hpos : 0 < acc
    · simp only [PitchClass.addAccGo, if_pos hpos]
      split
      · exact le_trans (ih _ _) hstep
      · exact le_refl _
    · simp only [PitchClass.addAccGo, if_neg hpos]
      split
      · exact le_trans (ih _ _) hstep
      · exact le_refl _

/-- The successful branch of `add_interval` leaves at most ten accidentals on
the result: the octave-correction loop exits with at most a minor-seventh
difference, and spending it as accidentals only shrinks it. -/
theorem addIntervalCore_acc_bound (t : Tuning) (i : Interval) (est : Int) :
    |(Tuning.addIntervalCore t i est).accidentals| ≤ 10 := by
  unfold Tuning.addIntervalCore
  set pc0 := PitchClass.fromDegree
    (t.cls.degree + i.degree * i.semitones.sign - i.semitones.sign) with hpc0
  set d0 := i.semitones + t.cls.semitones + t.accidentals -
    (pc0.semitones + (est - t.octave) * 12) with hd0
  have hfuel : |(Tuning.normLoop est d0).2| ≤ 10 :=
    normGo_fuel_sufficient d0.natAbs est d0 le_rfl
  show |(pc0.addAccidentals (Tuning.normLoop est d0).2).2| ≤ 10
  exact le_trans (addAccGo_abs _ _ _) hfuel

/-- The semitone index of every spelled pitch class is in 1..=12. -/
theorem pc_sem_bounds :
    ∀ pc : PitchClass, pc ≠ .None → 1 ≤ pc.semitones ∧ pc.semitones ≤ 12 := by
  intro pc
  cases pc <;> decide

/-- A successful `add_interval` shifts `class_semitones` by exactly the
interval's semitones modulo 12: the result's accidental budget is small enough
that the class computation cannot go negative, so the truncating `%` agrees
with the Euclidean residue of the shifted input. -/
theorem addInterval_classSemitones (t : Tuning) (i : Interval) (t' : Tuning)
    (h : t.addInterval i = .ok t') :
    t'.classSemitones =
      (t.cls.semitones + t.accidentals + 11 + i.semitones).emod 12 := by
  have hex := (addInterval_exact t i t' h).1
  have hne := (addInterval_exact t i t' h).2
  have hsem := pc_sem_bounds _ hne
  have hacc : |t'.accidentals| ≤ 10 := by
    unfold Tuning.addInterval at h
    split at h
    · exact absurd h (by simp)
    · cases h
      exact addIntervalCore_acc_bound t i (t.estimatedOctave i)
  rw [abs_le] at hacc
  unfold Tuning.classSemitones
  rw [tmod_twelve_eq_emod _ (by omega)]
  have harg : t'.cls.semitones + t'.accidentals + 11 =
      t.cls.semitones + t.accidentals + 11 + i.semitones + 12 * (t.octave - t'.octave) := by
    unfold Tuning.numberExact at hex
    omega
  rw [harg]
  exact Int.add_mul_emod_self_left
    (t.cls.semitones + t.accidentals + 11 + i.semitones) 12 (t.octave - t'.octave)

set_option maxHeartbeats 2000000 in
/-- The (quality, degree) table of `from_semitones` only produces degrees 1..=7. -/
theorem fromSemitonesQD_bounds (a : Int) (b : Bool) :
    1 ≤ (Interval.fromSemitonesQD a b).2 ∧ (Interval.fromSemitonesQD a b).2 ≤ 7 := by
  unfold Interval.fromSemitonesQD
  repeat' split
  all_goals decide

/-- `from_semitones` succeeds on every span of at most 100 semitones (the
degree check `1..=127` cannot fire below eight octaves). -/
theorem fromSemitones_isOk_of_small (s : Int) (h : |s| ≤ 100) :
    ∃ i, Interval.fromSemitones s = .ok i := by
  have hq := fromSemitonesQD_bounds (|s|.tmod 12) (decide (s < 0))
  have habs : (0 : Int) ≤ |s| := abs_nonneg s
  have ht : |s|.tdiv 12 = |s| / 12 := Int.tdiv_eq_ediv habs (by norm_num)
  have hcond : ¬(Interval.fromSemitonesDegree s < 1 ∨
      127 < Interval.fromSemitonesDegree s) := by
    unfold Interval.fromSemitonesDegree
    rw [ht]
    omega
  unfold Interval.fromSemitones
  rw [if_neg hcond]
  exact ⟨_, rfl⟩

/-- Membership in an ordered duplicate-free insertion. -/
theorem mem_insertSD {x y : Int} :
    ∀ {l : List Int}, y ∈ insertSD x l ↔ y = x ∨ y ∈ l := by
  intro l
  induction l with
  | nil => simp [insertSD]
  | cons z rest ih =>
    unfold insertSD
    split_ifs with h1 h2
    · simp [List.mem_cons]
    · subst h2
      simp [List.mem_cons]
    · simp only [List.mem_cons, ih]
      tauto

/-- `sortedDedup` preserves membership. -/
theorem mem_sortedDedup {y : Int} :
    ∀ {l : List Int}, y ∈ sortedDedup l ↔ y ∈ l := by
  intro l
  induction l with
  | nil => simp [sortedDedup]
  | cons z rest ih =>
    show y ∈ insertSD z (sortedDedup rest) ↔ _
    rw [mem_insertSD, ih]
    exact (List.mem_cons).symm

/-- Ordered insertion preserves strict sortedness. -/
theorem insertSD_sorted {x : Int} :
    ∀ {l : List Int}, l.Sorted (· < ·) → (insertSD x l).Sorted (· < ·) := by
  intro l
  induction l with
  | nil =>
    intro
    simp [insertSD]
  | cons z rest ih =>
    intro hs
    rw [List.sorted_cons] at hs
    unfold insertSD
    split_ifs with h1 h2
    · rw [List.sorted_cons]
      refine ⟨?_, List.sorted_cons.mpr hs⟩
      intro b hb
      rcases List.mem_cons.mp hb with rfl | hb'
      · exact h1
      · exact lt_trans h1 (hs.1 b hb')
    · exact List.sorted_cons.mpr hs
    · rw [List.sorted_cons]
      refine ⟨?_, ih hs.2⟩
      intro b hb
      rcases mem_insertSD.mp hb with rfl | hb'
      · omega
      · exact hs.1 b hb'

/-- `sortedDedup` output is strictly sorted. -/
theorem sortedDedup_sorted : ∀ l : List Int, (sortedDedup l).Sorted (· < ·) := by
  intro l
  induction l with
  | nil => simp [sortedDedup]
  | cons z rest ih => exact insertSD_sorted ih

/-- Two lists with the same members have the same canonical sorted-dedup form
(equal `BTreeSet`s compare equal regardless of insertion order). -/
theorem sortedDedup_congr {l₁ l₂ : List Int} (h : ∀ x : Int, x ∈ l₁ ↔ x ∈ l₂) :
    sortedDedup l₁ = sortedDedup l₂ := by
  have s1 := sortedDedup_sorted l₁
  have s2 := sortedDedup_sorted l₂
  refine List.eq_of_perm_of_sorted ?_ (List.Pairwise.imp (fun hab => le_of_lt hab) s1)
    (List.Pairwise.imp (fun hab => le_of_lt hab) s2)
  refine (List.perm_ext_iff_of_nodup s1.nodup s2.nodup).mpr ?_
  intro a
  rw [mem_sortedDedup, mem_sortedDedup]
  exact h a

/-- `find?` returns a given element when it is in the list, satisfies the
predicate, and is the only element of the list doing so. -/
theorem find?_eq_some_unique {α : Type} {p : α → Bool} :
    ∀ (l : List α) (y : α), y ∈ l → p y = true →
      (∀ x ∈ l, p x = true → x = y) → l.find? p = some y := by
  intro l
  induction l with
  | nil =>
    intro y hy
    simp at hy
  | cons z rest ih =>
    intro y hy hp huniq
    by_cases hz : p z = true
    · have hzy : z = y := huniq z (List.mem_cons_self z rest) hz
      rw [List.find?_cons_of_pos _ hz, hzy]
    · rw [List.find?_cons_of_neg _ (by simpa using hz)]
      rcases List.mem_cons.mp hy with rfl | hy'
      · exact absurd hp hz
      · exact ih y hy' hp (fun x hx => huniq x (List.mem_cons_of_mem z hx))

/-- The notes produced by a successful transposition chain carry exactly the
root's class shifted by each interval (as Euclidean residues). -/
theorem addAll_classes (root : Tuning) :
    ∀ (ivs : List Interval) (comps : List Tuning),
      Chord.addAll root ivs = some comps →
      comps.map Tuning.classSemitones =
        ivs.map
          (fun i =>
            (root.cls.semitones + root.accidentals + 11 + i.semitones).emod 12) := by
  intro ivs
  induction ivs with
  | nil =>
    intro comps h
    cases h
    rfl
  | cons i rest ih =>
    intro comps h
    unfold Chord.addAll at h
    split at h
    · exact absurd h (by simp)
    · rename_i t hadd
      cases hc : Chord.addAll root rest with
      | none =>
        rw [hc] at h
        simp at h
      | some cs =>
        rw [hc] at h
        simp only [Option.map_some', Option.some.injEq] at h
        subst h
        rw [List.map_cons, List.map_cons, ih cs hc,
          addInterval_classSemitones root i t hadd]

/-- The interval list of a freshly constructed chord is its quality's template. -/
theorem chordIntervals_construct (r : Tuning) (ct : ChordType) (q : ChordQuality) :
    Chord.chordIntervals (Chord.construct r ct q) = q.intervalsOf := by
  simp [Chord.chordIntervals, Chord.extScan, Chord.construct]

/-- Appending no extensions leaves a chord unchanged. -/
theorem withExtension_nil (c : Chord) : c.withExtension [] = c := by
  simp [Chord.withExtension]

/-- Components of a freshly constructed (root-position, close-voiced) chord:
the root followed by the transposed template notes, each clamped down to at
most one octave above the root. -/
theorem components_construct (r : Tuning) (q : ChordQuality) (l : List Tuning)
    (hc : Chord.components (Chord.construct r .Triad q) = some l) :
    ∃ comps, Chord.addAll r q.intervalsOf = some comps ∧
      l = r :: comps.map
        (fun n => if r.octave + 1 < n.octave then n.withOctave (r.octave + 1) else n) := by
  unfold Chord.components at hc
  rw [chordIntervals_construct] at hc
  simp only [Chord.construct] at hc
  cases ha : Chord.addAll r q.intervalsOf with
  | none =>
    rw [ha] at hc
    simp at hc
  | some comps =>
    rw [ha] at hc
    refine ⟨comps, rfl, ?_⟩
    simp only [Chord.applyInversion, Chord.applyVoicing, Chord.closeVoicing,
      Option.some.injEq] at hc
    exact hc.symm

/-- No catalog template tone is an octave duplicate of the root: every
template interval's octave-reduced class is nonzero. -/
theorem template_class_ne_zero :
    ∀ q ∈ ChordQuality.qualityList, ∀ i ∈ q.intervalsOf, i.semitones.emod 12 ≠ 0 := by
  decide

/-- Core of the C8 analysis: a note list headed by `r` whose truncated classes
are exactly `r`'s class followed by the Euclidean residues of a catalog
template's tones analyzes back, via `Chord::analyze_from`, to the
root-position chord `(r, q)` — provided `r` is the list's lexicographic
`(number, index)` minimum. -/
theorem analyzeFrom_exact_of_classes (q : ChordQuality)
    (hq : q ∈ ChordQuality.qualityList) (r : Tuning) (tl : List Tuning)
    (hclasses : (r :: tl).map Tuning.classSemitones =
      r.classSemitones :: q.intervalsOf.map
        (fun i => (r.cls.semitones + r.accidentals + 11 + i.semitones).emod 12))
    (hmin : Chord.minTuningOf (r :: tl) r = r) :
    Chord.analyzeFrom (r :: tl) = .ok (Chord.construct r .Triad q) := by
  set g : Interval → Int :=
    fun i => (r.cls.semitones + r.accidentals + 11 + i.semitones).emod 12 with hg
  set S : List Int := sortedDedup ((r :: tl).map Tuning.classSemitones) with hS
  have hcl : r.classSemitones = (r.cls.semitones + r.accidentals + 11).tmod 12 := rfl
  obtain ⟨dq, hdq⟩ : ∃ d : Int,
      (r.cls.semitones + r.accidentals + 11).tmod 12 =
        r.cls.semitones + r.accidentals + 11 - 12 * d := by
    refine ⟨(r.cls.semitones + r.accidentals + 11).tdiv 12, ?_⟩
    have h := Int.tmod_add_tdiv (r.cls.semitones + r.accidentals + 11) 12
    linarith
  have hclq : r.classSemitones = r.cls.semitones + r.accidentals + 11 - 12 * dq := by
    rw [hcl, hdq]
  have htbq : -12 < r.cls.semitones + r.accidentals + 11 - 12 * dq ∧
      r.cls.semitones + r.accidentals + 11 - 12 * dq < 12 := by
    rw [← hdq]
    exact tmod_twelve_bounds (r.cls.semitones + r.accidentals + 11)
  have hgb : ∀ i : Interval, 0 ≤ g i ∧ g i < 12 := by
    intro i
    simp only [hg]
    exact ⟨Int.emod_nonneg _ (by norm_num), Int.emod_lt_of_pos _ (by norm_num)⟩
  have hgne : ∀ x ∈ q.intervalsOf.map g, x ≠ r.classSemitones := by
    intro x hx heq
    obtain ⟨i, hi, rfl⟩ := List.mem_map.mp hx
    have h2 := congrArg (fun z : Int => z.emod 12) heq
    simp only [hg] at h2
    rw [hclq] at h2
    obtain ⟨k, hk, hk0, hk1⟩ := emod_twelve_decomp
      (r.cls.semitones + r.accidentals + 11 + i.semitones)
    rw [hk] at h2
    have hz : i.semitones.emod 12 = 0 := by
      simp only [emod_eq_mod] at h2 ⊢
      omega
    exact template_class_ne_zero q hq i hi hz
  have hSmem : ∀ x : Int, x ∈ S ↔ x = r.classSemitones ∨ x ∈ q.intervalsOf.map g := by
    intro x
    rw [hS, mem_sortedDedup, hclasses]
    exact List.mem_cons
  have hfilterm : ∀ x : Int,
      x ∈ S.filter (fun c => c ≠ r.classSemitones) ↔ x ∈ q.intervalsOf.map g := by
    intro x
    rw [List.mem_filter]
    constructor
    · rintro ⟨hmem, hne⟩
      have hne' : x ≠ r.classSemitones := of_decide_eq_true hne
      rcases (hSmem x).mp hmem with rfl | hmem'
      · exact absurd rfl hne'
      · exact hmem'
    · intro hx
      exact ⟨(hSmem x).mpr (Or.inr hx), decide_eq_true (hgne x hx)⟩
  have hrelmem : ∀ x : Int,
      x ∈ (Chord.relIntervals S r.classSemitones).map Interval.semitonesMod ↔
        x ∈ q.intervalsOf.map Interval.semitonesMod := by
    intro x
    constructor
    · intro hx
      obtain ⟨i', hi', rfl⟩ := List.mem_map.mp hx
      unfold Chord.relIntervals at hi'
      obtain ⟨c, hcf, hok⟩ := List.mem_filterMap.mp hi'
      have hokk : Interval.fromSemitones (c - r.classSemitones) = .ok i' := by
        cases hfs : Interval.fromSemitones (c - r.classSemitones) with
        | error e =>
          rw [hfs] at hok
          exact absurd hok (by simp [Except.toOption])
        | ok j =>
          rw [hfs] at hok
          simp only [Except.toOption, Option.some.injEq] at hok
          rw [hok]
      have hsem := fromSemitones_semitones _ _ hokk
      obtain ⟨i, hi, hgi⟩ := List.mem_map.mp ((hfilterm c).mp hcf)
      refine List.mem_map.mpr ⟨i, hi, ?_⟩
      unfold Interval.semitonesMod
      rw [hsem, ← hgi, hclq]
      simp only [hg]
      obtain ⟨k, hk, hk0, hk1⟩ := emod_twelve_decomp
        (r.cls.semitones + r.accidentals + 11 + i.semitones)
      rw [hk]
      simp only [emod_eq_mod]
      omega
    · intro hx
      obtain ⟨i, hi, rfl⟩ := List.mem_map.mp hx
      have hmem : g i ∈ S.filter (fun c => c ≠ r.classSemitones) :=
        (hfilterm _).mpr (List.mem_map.mpr ⟨i, hi, rfl⟩)
      have hbound : |g i - r.classSemitones| ≤ 100 := by
        rw [abs_le, hclq]
        have := hgb i
        omega
      obtain ⟨i', hok⟩ := fromSemitones_isOk_of_small _ hbound
      have hsem := fromSemitones_semitones _ _ hok
      refine List.mem_map.mpr ⟨i', ?_, ?_⟩
      · unfold Chord.relIntervals
        refine List.mem_filterMap.mpr ⟨g i, hmem, ?_⟩
        show (Interval.fromSemitones (g i - r.classSemitones)).toOption = some i'
        rw [hok]
        rfl
      · unfold Interval.semitonesMod
        rw [hsem, hclq]
        simp only [hg]
        obtain ⟨k, hk, hk0, hk1⟩ := emod_twelve_decomp
          (r.cls.semitones + r.accidentals + 11 + i.semitones)
        rw [hk]
        simp only [emod_eq_mod]
        omega
  have hset : classSetOf (Chord.relIntervals S r.classSemitones) =
      classSetOf q.intervalsOf :=
    sortedDedup_congr hrelmem
  have hfindQ : ChordQuality.findQ
      (classSetOf (Chord.relIntervals S r.classSemitones)) ChordQuality.qualityList =
      .ok q := by
    obtain ⟨q', hq', hs'⟩ := findQ_finds ChordQuality.qualityList
      (classSetOf (Chord.relIntervals S r.classSemitones)) ⟨q, hq, hset.symm⟩
    have hqq : q' = q :=
      List.inj_on_of_nodup_map catalog_sets_nodup (findQ_sound _ _ _ hq').1 hq
        (by rw [hs', hset])
    rw [← hqq]
    exact hq'
  have hscored :
      ChordQuality.analyzeScored (Chord.relIntervals S r.classSemitones) =
        .ok (q, []) := by
    unfold ChordQuality.analyzeScored
    rw [hfindQ]
  have hrootfind : (r :: tl).find?
      (fun t => t.classSemitones = r.classSemitones) = some r :=
    List.find?_cons_of_pos _ (decide_eq_true rfl)
  have hcand : Chord.candidateFor (r :: tl) r S r.classSemitones =
      some ((Chord.construct r .Triad q).withExtension []) := by
    simp only [Chord.candidateFor, hscored, hrootfind, Option.getD_some,
      List.filterMap_nil]
  have htmem : ((Chord.construct r .Triad q).withExtension []) ∈
      Chord.chordCandidates (r :: tl) r := by
    unfold Chord.chordCandidates
    rw [← hS]
    exact List.mem_filterMap.mpr
      ⟨r.classSemitones, (hSmem _).mpr (Or.inl rfl), hcand⟩
  have huniq : ∀ c' ∈ Chord.chordCandidates (r :: tl) r,
      decide (c'.root = r) = true →
        c' = (Chord.construct r .Triad q).withExtension [] := by
    intro c' hc' hp
    unfold Chord.chordCandidates at hc'
    rw [← hS] at hc'
    obtain ⟨rc, hrcS, hcf⟩ := List.mem_filterMap.mp hc'
    have hcf0 := hcf
    unfold Chord.candidateFor at hcf
    split at hcf
    · exact absurd hcf (by simp)
    · rename_i qr
      simp only [Option.some.injEq] at hcf
      subst hcf
      have hro : (((r :: tl).find? (fun t => t.classSemitones = rc)).getD r) = r :=
        of_decide_eq_true hp
      rw [hS, mem_sortedDedup] at hrcS
      obtain ⟨u0, hu0, hcls0⟩ := List.mem_map.mp hrcS
      have hsome : ((r :: tl).find? (fun t => t.classSemitones = rc)).isSome :=
        List.find?_isSome.mpr ⟨u0, hu0, decide_eq_true hcls0⟩
      obtain ⟨u, hu⟩ := Option.isSome_iff_exists.mp hsome
      rw [hu, Option.getD_some] at hro
      have hpu : (fun t : Tuning => decide (t.classSemitones = rc)) u = true :=
        List.find?_some (p := fun t : Tuning => decide (t.classSemitones = rc)) hu
      have hclsu : u.classSemitones = rc := of_decide_eq_true hpu
      rw [hro] at hclsu
      rw [← hclsu] at hcf0 ⊢
      rw [hcand] at hcf0
      exact (Option.some.inj hcf0).symm
  have hfind := @find?_eq_some_unique Chord (fun c => decide (c.root = r))
    (Chord.chordCandidates (r :: tl) r)
    ((Chord.construct r .Triad q).withExtension [])
    htmem (decide_eq_true rfl) huniq
  simp only [Chord.analyzeFrom]
  rw [hmin, hfind]
  show Except.ok ((Chord.construct r .Triad q).withExtension []) =
    Except.ok (Chord.construct r .Triad q)
  rw [withExtension_nil]

/-- C8 (amended): for every catalog `ChordQuality` and every root for which
`Chord::new(root, quality).components()` succeeds and for which the root
remains the lowest `(number, index)`-ranked note of the produced component
list, `Chord::analyze_from(components)` succeeds and returns exactly the
original root-position chord — same root, same quality, no extensions.  The
root condition is automatic whenever `number()` does not saturate; at extreme
octaves saturation can rank an inner note lowest and flip the analysis (see
the counterexample). -/
theorem c8_quality_roundtrip (q : ChordQuality) (hq : q ∈ ChordQuality.qualityList)
    (r : Tuning) (l : List Tuning)
    (hcomp : Chord.components (Chord.construct r .Triad q) = some l)
    (hmin : Chord.minTuningOf l r = r) :
    Chord.analyzeFrom l = .ok (Chord.construct r .Triad q) := by
  obtain ⟨comps, hadd, rfl⟩ := components_construct r q l hcomp
  have hcl2 : ∀ n : Tuning,
      Tuning.classSemitones
        (if r.octave + 1 < n.octave then n.withOctave (r.octave + 1) else n) =
        Tuning.classSemitones n := by
    intro n
    split <;> rfl
  have hclasses : (r :: comps.map
        (fun n => if r.octave + 1 < n.octave then n.withOctave (r.octave + 1) else n)).map
        Tuning.classSemitones =
      r.classSemitones :: q.intervalsOf.map
        (fun i => (r.cls.semitones + r.accidentals + 11 + i.semitones).emod 12) := by
    rw [List.map_cons, List.map_map]
    have h1 : comps.map (Tuning.classSemitones ∘
        (fun n => if r.octave + 1 < n.octave then n.withOctave (r.octave + 1) else n)) =
        comps.map Tuning.classSemitones :=
      List.map_congr_left (fun n _ => hcl2 n)
    rw [h1, addAll_classes r q.intervalsOf comps hadd]
  exact analyzeFrom_exact_of_classes q hq r _ hclasses hmin

/-- C8 witness: the claim's own example — the components of
`Chord::new(C4, Dominant7)` are `[C4, E4, G4, Bb4]`, C4 is their minimum, and
`analyze_from` returns the C4 dominant-seventh chord. -/
theorem c8_quality_roundtrip_witness :
    Chord.analyzeFrom [Tuning.new .C 4, Tuning.new .E 4, Tuning.new .G 4, ⟨.Bb, 0, 4⟩] =
      .ok (Chord.construct (Tuning.new .C 4) .Triad .Dominant7) :=
  c8_quality_roundtrip .Dominant7 (by decide) (Tuning.new .C 4)
    [Tuning.new .C 4, Tuning.new .E 4, Tuning.new .G 4, ⟨.Bb, 0, 4⟩]
    (by decide) (by decide)

/-- C8 counterexample: at octave 10 the saturating `number()` clamps to 127,
ranking the flattened third Eb♭10 below the root C10; the diminished-seventh
chord on C10 then analyzes to a *dominant* seventh rooted at its third, so the
round trip does not return the original quality. -/
theorem c8_quality_counterexample :
    Chord.components (Chord.construct (Tuning.new .C 10) .Triad .Diminished7) =
      some [⟨.C, 0, 10⟩, ⟨.Eb, -1, 10⟩, ⟨.Gb, 0, 10⟩, ⟨.Bb, -1, 10⟩] ∧
    (Chord.analyzeFrom
        [⟨.C, 0, 10⟩, ⟨.Eb, -1, 10⟩, ⟨.Gb, 0, 10⟩, ⟨.Bb, -1, 10⟩]).toOption.map
      Chord.quality = some .Dominant7 ∧
    ChordQuality.Dominant7 ≠ ChordQuality.Diminished7 := by
  decide

/-! Claim C9. -/

/-- C9: chord inversion is a structural rotation — `RootPosition` leaves the
note list unchanged, `First`/`Second`/`Third` rotate the list left by 1/2/3
and raise the now-last note's octave by one, with no re-sorting by pitch;
concretely, `Chord::new(C4, Major).invert(First).components()` is
`[E4, G4, C5]`, and the second inversion gives the unsorted `[G4, C4, E5]`. -/
theorem c9_inversion_rotation :
    (∀ notes : List Tuning, Chord.applyInversion .RootPosition notes = some notes) ∧
    (∀ notes : List Tuning, 1 ≤ notes.length →
      Chord.applyInversion .First notes = some (Chord.bumpLast (rotL 1 notes))) ∧
    (∀ notes : List Tuning, 2 ≤ notes.length →
      Chord.applyInversion .Second notes = some (Chord.bumpLast (rotL 2 notes))) ∧
    (∀ notes : List Tuning, 3 ≤ notes.length →
      Chord.applyInversion .Third notes = some (Chord.bumpLast (rotL 3 notes))) ∧
    Chord.components ((Chord.construct (Tuning.new .C 4) .Triad .Major).invert .First) =
      some [Tuning.new .E 4, Tuning.new .G 4, ⟨.C, 0, 5⟩] ∧
    Chord.components ((Chord.construct (Tuning.new .C 4) .Triad .Major).invert .Second) =
      some [Tuning.new .G 4, Tuning.new .C 4, ⟨.E, 0, 5⟩] := by
  refine ⟨fun notes => rfl, fun notes h => ?_, fun notes h => ?_, fun notes h => ?_,
    by decide, by decide⟩
  all_goals
    simp only [Chord.applyInversion]
    rw [if_neg (by omega)]

/-- C9 witness: the first-inversion rotation at a singleton list. -/
theorem c9_inversion_rotation_witness :
    Chord.applyInversion .First [Tuning.new .C 4] =
      some (Chord.bumpLast (rotL 1 [Tuning.new .C 4])) :=
  c9_inversion_rotation.2.1 [Tuning.new .C 4] (by decide)

/-! Claim C10. -/

/-- The scored analyzer fails only with `InvalidChordQuality`. -/
theorem scored_error_code (l : List Interval) (e : MusicError)
    (h : ChordQuality.analyzeScored l = .error e) : e = .InvalidChordQuality := by
  unfold ChordQuality.analyzeScored at h
  split at h
  · exact absurd h (by simp)
  · split at h
    · exact (Except.error.inj h).symm
    · exact absurd h (by simp)

/-- C10: `Chord::analyze_from` on the empty list returns `InvalidPitch`, and
`UnsupportedChord` arises only for non-empty inputs on which every candidate
root class fails to produce a recognized chord quality. -/
theorem c10_analyze_error_cases :
    (Chord.analyzeFrom [] = .error .InvalidPitch) ∧
    (∀ ts : List Tuning, Chord.analyzeFrom ts = .error .UnsupportedChord →
      ts ≠ [] ∧
      ∀ rc ∈ sortedDedup (ts.map Tuning.classSemitones),
        ChordQuality.analyzeScored
          (Chord.relIntervals (sortedDedup (ts.map Tuning.classSemitones)) rc) =
          .error .InvalidChordQuality) := by
  refine ⟨rfl, ?_⟩
  intro ts h
  cases ts with
  | nil => exact absurd h (by decide)
  | cons t0 rest =>
    refine ⟨by simp, ?_⟩
    intro rc hrc
    simp only [Chord.analyzeFrom] at h
    cases hfind : (Chord.chordCandidates (t0 :: rest) t0).find?
        (fun c => c.root = Chord.minTuningOf (t0 :: rest) t0) with
    | some c =>
      rw [hfind] at h
      simp at h
    | none =>
      rw [hfind] at h
      cases hcand : Chord.chordCandidates (t0 :: rest) t0 with
      | cons c cs =>
        rw [hcand] at h
        simp at h
      | nil =>
        unfold Chord.chordCandidates at hcand
        have hnone := (List.filterMap_eq_nil_iff.mp hcand) rc hrc
        unfold Chord.candidateFor at hnone
        split at hnone
        · rename_i e herr
          rw [scored_error_code _ _ herr] at herr
          exact herr
        · exact absurd hnone (by simp)

/-- C10 witness: a single pitch has no recognizable chord quality, so analysis
of `[C4]` reaches the `UnsupportedChord` branch with a non-empty input. -/
theorem c10_analyze_error_cases_witness : [Tuning.new .C 4] ≠ [] :=
  (c10_analyze_error_cases.2 [Tuning.new .C 4] (by decide)).1

end Mutheors
